import Mathlib

/-!
# go-tran: language resolution and chunked batch translation

A shallow embedding of `lang.go` (the static ISO 639-1 table, `LookupLang`,
`LangList` and `CurrentLang`) and of `cmd/tran/main.go` (the batch pipeline
`scanText`, `translate`, `batch`, and the interactive session `interact` with
`commandSource` and `commandTarget`), followed by the properties proved about
them.

Modelling conventions

* A Go `string` is a Lean `String`, a list of runes; `len([]rune(s))` is
  `String.length` and `len(s) == 0` is `utf8ByteSize == 0`.  On valid UTF-8 a
  string occurs in another as bytes exactly when it does as runes, so
  `strings.Contains` is read on the runes.
* The rune mapping `unicode.ToLower` of the Go standard library is a parameter
  `lo : Char → Char`; `strings.ToLower` maps it over the runes of a string.
* A Go `map` is an association list in source order.  A `range` loop over the
  map visits every entry once in an unspecified order, so the loop takes the
  visiting order as an explicit list `order`, a permutation of the map.
* A reader is the list of the lines it delivers, each without its newline.  A
  read error ends the input as the end of the file does: `Scan` treats every
  error of `Read` alike, and the program never reads `sc.Err()`.
* A `*bufio.Scanner` is the list of the results of the calls of `sc.Scan()`
  still to come (`Scanner`).  `NewScanner` builds it from the lines with the
  limit of the default buffer, `MaxScanTokenSize`: on a line of that many bytes
  or more `Scan` fails, the next call returns what the buffer holds, and the
  rest of the input is never read.
* A Lean `String` holds no invalid UTF-8: where Go cuts an encoding, each of its
  bytes is written as U+FFFD, the rune that Go reads for it.
* Go `int` is `Int`: the counter of `scanText` is bounded by the size of the
  input and does not overflow.
* The writer, the backend and the order of the steps are explicit state: `Run`
  holds what has been written, the state of the backend and a log of events.
* `sort.Slice` is a parameter of `LangList`, with its contract `SortSpec`.
* A run-time panic is the result `none`; `s[:2]` is read on the UTF-8 bytes.
* The session acts on `Term`, the state of its collaborators and the list of
  its effects; one turn of its loop is `interactStep`, and `interact` runs the
  loop on the successive results of the prompt.
-/

namespace GoTran

/-! ## lang.go -/

/-- The package-level map `iso639map`, in source order. -/
def iso639map : List (String × String) := [
  ("ab", "Abkhazian"),
  ("aa", "Afar"),
  ("af", "Afrikaans"),
  ("ak", "Akan"),
  ("sq", "Albanian"),
  ("am", "Amharic"),
  ("ar", "Arabic"),
  ("an", "Aragonese"),
  ("hy", "Armenian"),
  ("as", "Assamese"),
  ("av", "Avaric"),
  ("ae", "Avestan"),
  ("ay", "Aymara"),
  ("az", "Azerbaijani"),
  ("bm", "Bambara"),
  ("ba", "Bashkir"),
  ("eu", "Basque"),
  ("be", "Belarusian"),
  ("bn", "Bengali"),
  ("bh", "Bihari languages"),
  ("bi", "Bislama"),
  ("bs", "Bosnian"),
  ("br", "Breton"),
  ("bg", "Bulgarian"),
  ("my", "Burmese"),
  ("ca", "Catalan"),
  ("ch", "Chamorro"),
  ("ce", "Chechen"),
  ("ny", "Chichewa"),
  ("zh", "Chinese"),
  ("cv", "Chuvash"),
  ("kw", "Cornish"),
  ("co", "Corsican"),
  ("cr", "Cree"),
  ("hr", "Croatian"),
  ("cs", "Czech"),
  ("da", "Danish"),
  ("dv", "Divehi"),
  ("nl", "Dutch"),
  ("dz", "Dzongkha"),
  ("en", "English"),
  ("eo", "Esperanto"),
  ("et", "Estonian"),
  ("ee", "Ewe"),
  ("fo", "Faroese"),
  ("fj", "Fijian"),
  ("fi", "Finnish"),
  ("fr", "French"),
  ("ff", "Fulah"),
  ("gl", "Galician"),
  ("ka", "Georgian"),
  ("de", "German"),
  ("el", "Greek"),
  ("gn", "Guarani"),
  ("gu", "Gujarati"),
  ("ht", "Haitian"),
  ("ha", "Hausa"),
  ("he", "Hebrew"),
  ("hz", "Herero"),
  ("hi", "Hindi"),
  ("ho", "Hiri Motu"),
  ("hu", "Hungarian"),
  ("ia", "Interlingua"),
  ("id", "Indonesian"),
  ("ie", "Interlingue"),
  ("ga", "Irish"),
  ("ig", "Igbo"),
  ("ik", "Inupiaq"),
  ("io", "Ido"),
  ("is", "Icelandic"),
  ("it", "Italian"),
  ("iu", "Inuktitut"),
  ("ja", "Japanese"),
  ("jv", "Javanese"),
  ("kl", "Kalaallisut"),
  ("kn", "Kannada"),
  ("kr", "Kanuri"),
  ("ks", "Kashmiri"),
  ("kk", "Kazakh"),
  ("km", "Central Khmer"),
  ("ki", "Kikuyu"),
  ("rw", "Kinyarwanda"),
  ("ky", "Kirghiz"),
  ("kv", "Komi"),
  ("kg", "Kongo"),
  ("ko", "Korean"),
  ("ku", "Kurdish"),
  ("kj", "Kuanyama"),
  ("la", "Latin"),
  ("lb", "Luxembourgish"),
  ("lg", "Ganda"),
  ("li", "Limburgan"),
  ("ln", "Lingala"),
  ("lo", "Lao"),
  ("lt", "Lithuanian"),
  ("lu", "Luba-Katanga"),
  ("lv", "Latvian"),
  ("gv", "Manx"),
  ("mk", "Macedonian"),
  ("mg", "Malagasy"),
  ("ms", "Malay"),
  ("ml", "Malayalam"),
  ("mt", "Maltese"),
  ("mi", "Maori"),
  ("mr", "Marathi"),
  ("mh", "Marshallese"),
  ("mn", "Mongolian"),
  ("na", "Nauru"),
  ("nv", "Navajo"),
  ("nd", "North Ndebele"),
  ("ne", "Nepali"),
  ("ng", "Ndonga"),
  ("nb", "Norwegian Bokmål"),
  ("nn", "Norwegian Nynorsk"),
  ("no", "Norwegian"),
  ("ii", "Sichuan Yi"),
  ("nr", "South Ndebele"),
  ("oc", "Occitan"),
  ("oj", "Ojibwa"),
  ("cu", "Church\u00a0Slavic"),
  ("om", "Oromo"),
  ("or", "Oriya"),
  ("os", "Ossetian"),
  ("pa", "Punjabi"),
  ("pi", "Pali"),
  ("fa", "Persian"),
  ("pl", "Polish"),
  ("ps", "Pashto"),
  ("pt", "Portuguese"),
  ("qu", "Quechua"),
  ("rm", "Romansh"),
  ("rn", "Rundi"),
  ("ro", "Romanian"),
  ("ru", "Russian"),
  ("sa", "Sanskrit"),
  ("sc", "Sardinian"),
  ("sd", "Sindhi"),
  ("se", "Northern Sami"),
  ("sm", "Samoan"),
  ("sg", "Sango"),
  ("sr", "Serbian"),
  ("gd", "Gaelic"),
  ("sn", "Shona"),
  ("si", "Sinhala"),
  ("sk", "Slovak"),
  ("sl", "Slovenian"),
  ("so", "Somali"),
  ("st", "Southern Sotho"),
  ("es", "Spanish"),
  ("su", "Sundanese"),
  ("sw", "Swahili"),
  ("ss", "Swati"),
  ("sv", "Swedish"),
  ("ta", "Tamil"),
  ("te", "Telugu"),
  ("tg", "Tajik"),
  ("th", "Thai"),
  ("ti", "Tigrinya"),
  ("bo", "Tibetan"),
  ("tk", "Turkmen"),
  ("tl", "Tagalog"),
  ("tn", "Tswana"),
  ("to", "Tonga"),
  ("tr", "Turkish"),
  ("ts", "Tsonga"),
  ("tt", "Tatar"),
  ("tw", "Twi"),
  ("ty", "Tahitian"),
  ("ug", "Uighur"),
  ("uk", "Ukrainian"),
  ("ur", "Urdu"),
  ("uz", "Uzbek"),
  ("ve", "Venda"),
  ("vi", "Vietnamese"),
  ("vo", "Volapük"),
  ("wa", "Walloon"),
  ("cy", "Welsh"),
  ("wo", "Wolof"),
  ("fy", "Western Frisian"),
  ("xh", "Xhosa"),
  ("yi", "Yiddish"),
  ("yo", "Yoruba"),
  ("za", "Zhuang"),
  ("zu", "Zulu")
]

/-- Go `strings.ToLower`, with the rune mapping `unicode.ToLower` passed as `lo`. -/
def ToLower (lo : Char → Char) (s : String) : String :=
  ⟨s.data.map lo⟩

/-- The runes of the table's names that lie outside ASCII: the no-break space
of `Church Slavic` (U+00A0), U+00E5 of `Norwegian Bokmål` and U+00FC of
`Volapük`. -/
def tableRunes : List Char := [Char.ofNat 160, Char.ofNat 229, Char.ofNat 252]

/-- The facts about Go's `unicode.ToLower` that results on concrete queries
rely on: on ASCII it lowers `A`-`Z` and leaves the rest alone, and it leaves
alone the runes of the table outside ASCII, none of which is an upper-case
letter. -/
structure LowerSpec (lo : Char → Char) : Prop where
  ascii : ∀ c : Char, c.toNat < 128 → lo c = c.toLower
  table : ∀ c ∈ tableRunes, lo c = c

/-- Go `strings.Contains s substr`: `substr` occurs in `s` at some offset. -/
def Contains (s substr : String) : Bool :=
  s.data.tails.any (fun t => substr.data.isPrefixOf t)

/-- The `range iso639map` loop of `LookupLang`: the first visited entry whose
lowercased name contains `c`. -/
def rangeContains (lo : Char → Char) (c : String) :
    List (String × String) → Option (String × String)
  | [] => none
  | (k, v) :: rest =>
    let lv := ToLower lo v
    if Contains lv c then some (k, v) else rangeContains lo c rest

/-- Go `LookupLang`; the result is the triple `(code, name, err)`, with
`err = none` for Go's `nil`. -/
def LookupLang (lo : Char → Char) (order : List (String × String)) (s : String) :
    String × String × Option String :=
  let c := ToLower lo s
  match iso639map.lookup c with
  | some n => (c, n, none)
  | none =>
    match rangeContains lo c order with
    | some (k, v) => (k, v, none)
    | none => ("", "", some (s ++ " is not found"))

/-- Go `type ISO639 struct`. -/
structure ISO639 where
  Code : String
  Name : String
  deriving DecidableEq

/-- The comparison `a[i].Code < a[j].Code` that `LangList` passes to
`sort.Slice`.  Go orders strings by their bytes, which on UTF-8 is the
lexicographic order of the runes. -/
def lessCode (x y : ISO639) : Bool :=
  decide (x.Code.data < y.Code.data)

/-- What `sort.Slice(a, less)` of the Go standard library guarantees for the
comparison of `LangList`: the slice is rearranged, and afterwards no element is
less than an element before it. -/
structure SortSpec (sortSlice : (ISO639 → ISO639 → Bool) → List ISO639 → List ISO639) :
    Prop where
  perm : ∀ l, (sortSlice lessCode l).Perm l
  sorted : ∀ l, (sortSlice lessCode l).Pairwise (fun x y => lessCode y x = false)

/-- Go `LangList`; `sortSlice` is `sort.Slice` and `order` the order in which
the `range` loop fills the slice. -/
def LangList (sortSlice : (ISO639 → ISO639 → Bool) → List ISO639 → List ISO639)
    (order : List (String × String)) : List ISO639 :=
  let a := order.map (fun kv => ISO639.mk kv.1 kv.2)
  sortSlice lessCode a

/-- The bytes of a Go string, its UTF-8 encoding. -/
def utf8Bytes (s : String) : List Nat :=
  s.data.flatMap (fun c => (String.utf8EncodeChar c).map UInt8.toNat)

/-- The rune U+FFFD that Go reads for a byte that is not valid UTF-8. -/
def RuneError : Char := Char.ofNat 65533

/-- The runes that Go reads from the string of the two bytes `a`, `b`: two
ASCII runes, one rune encoded in two bytes, or `RuneError` for a byte that
starts or continues a longer encoding. -/
def runesOfTwoBytes (a b : Nat) : String :=
  if a < 128 then
    ⟨[Char.ofNat a, if b < 128 then Char.ofNat b else RuneError]⟩
  else if 194 ≤ a ∧ a ≤ 223 ∧ 128 ≤ b ∧ b ≤ 191 then
    ⟨[Char.ofNat ((a % 32) * 64 + b % 64)]⟩
  else
    ⟨[RuneError, if b < 128 then Char.ofNat b else RuneError]⟩

/-- The slice expression `s[:2]` on the bytes of a string: the first two bytes,
or `none` for the run-time panic `slice bounds out of range` when there are
fewer than two. -/
def sliceTwo (s : String) : Option (Nat × Nat) :=
  match utf8Bytes s with
  | a :: b :: _ => some (a, b)
  | _ => none

/-- Go `CurrentLang`.  `LANG` is the result of `os.LookupEnv("LANG")`, `windows`
is `runtime.GOOS == "windows"` and `culture` the output of the PowerShell
command, `none` when it fails.  The local `lang` is either empty (`none`) or two
bytes long.  The result is `none` when the function panics. -/
def CurrentLang (lo : Char → Char) (order : List (String × String))
    (LANG : Option String) (windows : Bool) (culture : Option String) :
    Option (String × String) :=
  let sliced : Option (Option (Nat × Nat)) :=
    match LANG with
    | some s => (sliceTwo s).map some
    | none =>
      if windows then
        match culture with
        | some bs => (sliceTwo bs).map some
        | none => some none
      else some none
  match sliced with
  | none => none
  | some none => some ("en", "English")
  | some (some (a, b)) =>
    match LookupLang lo order (runesOfTwoBytes a b) with
    | (code, name, none) => some (code, name)
    | (_, _, some _) => some ("en", "English")

/-! ## cmd/tran/main.go: the batch pipeline -/

/-- The part of `config.Config` that the batch pipeline reads.  The translation
backend `cfg.APIEndpoint.Translate` is a network call, so it is a function of
its three arguments and of a backend state `σ` that it may change. -/
structure Config (σ : Type) where
  DefaultSourceCode : String
  DefaultTargetCode : String
  APILimitNChars : Int
  Translate : String → String → String → σ → Except String String × σ

/-- Go `bufio.MaxScanTokenSize`, the size to which the buffer of a scanner made
by `bufio.NewScanner` may grow. -/
def MaxScanTokenSize : Nat := 64 * 1024

/-- Go `dropCR` of `bufio.ScanLines`: a carriage return at the end is dropped. -/
def dropCR (s : String) : String :=
  if s.data.getLast? = some '\r' then ⟨s.data.dropLast⟩ else s

/-- The runes Go reads from the first `k` bytes of a string: the runes whose
encoding fits, and `RuneError` for each byte of an encoding that is cut. -/
def takeBytes : Nat → List Char → List Char
  | _, [] => []
  | k, c :: cs =>
    if c.utf8Size ≤ k then c :: takeBytes (k - c.utf8Size) cs
    else List.replicate k RuneError

/-- A `*bufio.Scanner` with the split function `ScanLines`, given as the
results of the calls of `sc.Scan()` still to come: `some s` for `true` with
`sc.Text() = s`, `none` for `false`; once the list is used up every call
returns `false`. -/
abbrev Scanner : Type := List (Option String)

/-- Go `bufio.NewScanner(r)` on a reader that delivers the lines `r`, each
without its newline.  A line is returned without its carriage return.  The
buffer holds `MaxScanTokenSize` bytes, so a line of that many bytes or more,
for which the newline does not fit, makes `Scan` fail with `ErrTooLong`; the
call after that returns the bytes in the buffer as the last token, and no later
line is read. -/
def NewScanner : List String → Scanner
  | [] => []
  | raw :: rest =>
    if raw.utf8ByteSize < MaxScanTokenSize then some (dropCR raw) :: NewScanner rest
    else [none, some (dropCR ⟨takeBytes MaxScanTokenSize raw.data⟩)]

/-- What `scanText` returns, together with the scanner after the call. -/
structure ScanResult where
  out : String
  eof : Bool
  sc : Scanner
  deriving DecidableEq

/-- The loop `for i := 0; i < n; { ... }` of `scanText`: `sc` is the scanner,
`i` the counter and `sb` the builder; returns the builder and the scanner. -/
def scanLoop (n : Int) : Scanner → Int → String → String × Scanner
  | sc, i, sb =>
    if i < n then
      match sc with
      | [] => (sb, [])
      | none :: rest => (sb, rest)
      | some s :: rest => scanLoop n rest (i + s.length) ((sb ++ s) ++ "\n")
    else (sb, sc)

/-- Go `scanText`. -/
def scanText (sc : Scanner) (n : Int) : ScanResult :=
  let r := scanLoop n sc 0 ""
  { out := r.1, eof := r.1.utf8ByteSize == 0, sc := r.2 }

/-- Observable steps of the pipeline, in the order in which they happen. -/
inductive Event where
  | scan (out : String) (eof : Bool)
  | call (text source target : String)
  | write (out : String)
  deriving DecidableEq

/-- The world the pipeline acts on: the bytes written to the writer so far, the
state of the backend, and the record of the steps taken. -/
structure Run (σ : Type) where
  w : String
  api : σ
  log : List Event

/-- The chunked reader on its own: the chunks that successive calls
`scanText(sc, n)` return, up to the call that reports end of stream. -/
def scanAll (n : Int) (sc : Scanner) : List String :=
  let r := scanText sc n
  if r.eof = true then []
  else r.out :: scanAll n r.sc
termination_by sc.length
decreasing_by
  rename_i hne
  have key : ∀ (l : Scanner) (i : Int) (sb : String),
      (scanLoop n l i sb).2.length ≤ l.length ∧
      ((scanLoop n l i sb).1 ≠ sb → (scanLoop n l i sb).2.length < l.length) := by
    intro l
    induction l with
    | nil => intro i sb; unfold scanLoop; split <;> simp
    | cons o rest ih =>
      intro i sb
      cases o with
      | none =>
        unfold scanLoop
        split <;> simp
      | some s =>
        unfold scanLoop
        split
        · have h1 := (ih (i + s.length) ((sb ++ s) ++ "\n")).1
          simp only [List.length_cons]
          exact ⟨by omega, fun _ => by omega⟩
        · simp
  have hout : (scanLoop n sc 0 "").1 ≠ "" := by
    intro h0
    apply hne
    show ((scanLoop n sc 0 "").1.utf8ByteSize == 0) = true
    rw [h0]
    rfl
  exact (key sc 0 "").2 hout

/-- The `for` loop of `translate`, run on the scanner `sc`. -/
def translateLoop {σ : Type} (cfg : Config σ) (sc : Scanner) (st : Run σ) :
    Option String × Run σ :=
  let source := cfg.DefaultSourceCode
  let target := cfg.DefaultTargetCode
  let tran := cfg.Translate
  let limit := cfg.APILimitNChars
  let r := scanText sc limit
  let st1 : Run σ := { st with log := st.log ++ [Event.scan r.out r.eof] }
  if r.eof = true then (none, st1)
  else
    match tran r.out source target st1.api with
    | (Except.error err, api) =>
      (some err, { st1 with api := api, log := st1.log ++ [Event.call r.out source target] })
    | (Except.ok out, api) =>
      translateLoop cfg r.sc
        { w := st1.w ++ out, api := api,
          log := st1.log ++ [Event.call r.out source target, Event.write out] }
termination_by sc.length
decreasing_by
  rename_i hne
  have key : ∀ (l : Scanner) (i : Int) (sb : String),
      (scanLoop cfg.APILimitNChars l i sb).2.length ≤ l.length ∧
      ((scanLoop cfg.APILimitNChars l i sb).1 ≠ sb →
        (scanLoop cfg.APILimitNChars l i sb).2.length < l.length) := by
    intro l
    induction l with
    | nil => intro i sb; unfold scanLoop; split <;> simp
    | cons o rest ih =>
      intro i sb
      cases o with
      | none =>
        unfold scanLoop
        split <;> simp
      | some s =>
        unfold scanLoop
        split
        · have h1 := (ih (i + s.length) ((sb ++ s) ++ "\n")).1
          simp only [List.length_cons]
          exact ⟨by omega, fun _ => by omega⟩
        · simp
  have hout : (scanLoop cfg.APILimitNChars sc 0 "").1 ≠ "" := by
    intro h0
    apply hne
    show ((scanLoop cfg.APILimitNChars sc 0 "").1.utf8ByteSize == 0) = true
    rw [h0]
    rfl
  exact (key sc 0 "").2 hout

/-- Go `translate(w, r)`: `r` is the content of the reader as lines and `st.w`
the writer; returns Go's `error` (`none` for `nil`) and the world afterwards. -/
def translate {σ : Type} (cfg : Config σ) (r : List String) (st : Run σ) :
    Option String × Run σ :=
  let sc := NewScanner r
  translateLoop cfg sc st

/-- The `for _, path := range paths` loop of `batch`; `fs path` is what
`os.Open(path)` gives, an error or the lines of the file. -/
def batchRange {σ : Type} (cfg : Config σ) (fs : String → Except String (List String)) :
    List String → Run σ → Option String × Run σ
  | [], st => (none, st)
  | path :: rest, st =>
    match fs path with
    | Except.error err => (some err, st)
    | Except.ok f => batchRange cfg fs rest (translate cfg f st).2

/-- Go `batch(paths)`; `stdin` is the content of standard input as lines and
`st.w` is standard output. -/
def batch {σ : Type} (cfg : Config σ) (stdin : List String)
    (fs : String → Except String (List String)) (paths : List String) (st : Run σ) :
    Option String × Run σ :=
  if paths.length = 0 then (none, (translate cfg stdin st).2)
  else batchRange cfg fs paths st

/-- The tail of Go `main` in batch mode, `err = batch(flag.Args())` and the
check after it: the exit code of the process. -/
def mainBatch {σ : Type} (cfg : Config σ) (stdin : List String)
    (fs : String → Except String (List String)) (args : List String) (st : Run σ) : Nat :=
  match (batch cfg stdin fs args st).1 with
  | some _ => 1
  | none => 0

/-! ## cmd/tran/main.go: the interactive session -/

/-- Go `unicode.IsSpace`: the runes with the Unicode property White_Space. -/
def IsSpace (c : Char) : Bool :=
  let n := c.toNat
  n == 9 || n == 10 || n == 11 || n == 12 || n == 13 || n == 32 || n == 133 || n == 160 ||
    n == 5760 || (decide (8192 ≤ n) && decide (n ≤ 8202)) || n == 8232 || n == 8233 ||
    n == 8239 || n == 8287 || n == 12288

/-- Go `strings.TrimSpace`. -/
def TrimSpace (s : String) : String :=
  ⟨((s.data.dropWhile IsSpace).reverse.dropWhile IsSpace).reverse⟩

/-- Go `strings.HasPrefix s p`. -/
def HasPrefix (s p : String) : Bool :=
  p.data.isPrefixOf s.data

/-- Go `brackets`. -/
def brackets (s : String) : String :=
  if s = "" then "" else ("(" ++ s) ++ ")"

/-- The configuration and the collaborators of the session, none of which is
part of the sources: the defaults of `config.Config`, the language lookup of the
API endpoint `cfg.APIEndpoint.LookupLang`, the local lookups `tran.LookupPlang`
and `tran.Ptranslate`, and `cfg.APIEndpoint.LangListContains`.  Each is a
function of its arguments and of the state `σ` of the outside world; a lookup
returns its results with the flag `ok` last. -/
structure SessionConfig (σ : Type) extends Config σ where
  DefaultSourceName : String
  DefaultTargetName : String
  APILookupLang : String → σ → (String × String × Bool) × σ
  LookupPlang : String → σ → (String × String × Bool) × σ
  Ptranslate : String → String → σ → (String × Bool) × σ
  LangListContains : String → σ → List ISO639 × σ

/-- What the session does to the outside, in the order in which it happens: the
lines it prints on standard error, without their colours, the calls of the
translation backend, and the entries it adds to the history. -/
inductive Effect where
  | welcome
  | help
  | promptError (err : String)
  | farewell
  | langCodes (a : List ISO639)
  | notFound (q : String)
  | sourceChanged (name code : String)
  | targetChanged (name code : String)
  | translateCall (text source target : String)
  | result (out : String)
  | error (msg : String)
  | history (inp : String)
  deriving DecidableEq

/-- The world of the session: the state of the collaborators and what the
session has done so far. -/
structure Term (σ : Type) where
  api : σ
  out : List Effect

/-- Go `commandLangCodes`; it is called with `l` or with a string that starts
with `l `, of which `in[2:]` drops those two bytes. -/
def commandLangCodes {σ : Type} (cfg : SessionConfig σ) (inp : String) (t : Term σ) :
    Term σ :=
  let q : String := if inp ≠ "l" then ⟨inp.data.drop 2⟩ else inp
  match cfg.LangListContains q t.api with
  | (a, api) =>
    if a.length = 0 then { api := api, out := t.out ++ [Effect.notFound q] }
    else { api := api, out := t.out ++ [Effect.langCodes a] }

/-- The lookup shared by `commandSource` and `commandTarget`: the API endpoint
first and, when it does not find the query, `tran.LookupPlang`. -/
def lookupBoth {σ : Type} (cfg : SessionConfig σ) (q : String) (a : σ) :
    (String × String × Bool) × σ :=
  match cfg.APILookupLang q a with
  | ((code, name, true), a1) => ((code, name, true), a1)
  | ((_, _, false), a1) => cfg.LookupPlang q a1

/-- Go `commandSource(in, curr)`, returning `(source, ok)`. -/
def commandSource {σ : Type} (cfg : SessionConfig σ) (inp curr : String) (t : Term σ) :
    (String × Bool) × Term σ :=
  let found : Option (String × String) × Term σ :=
    if inp = "s" then (some (cfg.DefaultSourceCode, cfg.DefaultSourceName), t)
    else
      let q : String := if HasPrefix inp "s " then TrimSpace ⟨inp.data.drop 2⟩ else inp
      match lookupBoth cfg q t.api with
      | ((code, name, true), a) => (some (code, name), { api := a, out := t.out })
      | ((_, _, false), a) => (none, { api := a, out := t.out ++ [Effect.notFound q] })
  match found with
  | (none, t1) => (("", false), t1)
  | (some (code, name), t1) =>
    if curr ≠ code then
      ((code, true), { t1 with out := t1.out ++ [Effect.sourceChanged name (brackets code)] })
    else ((code, true), t1)

/-- Go `commandTarget(in, curr)`, returning `(target, ok)`. -/
def commandTarget {σ : Type} (cfg : SessionConfig σ) (inp curr : String) (t : Term σ) :
    (String × Bool) × Term σ :=
  let found : Option (String × String) × Term σ :=
    if inp = "t" then (some (cfg.DefaultTargetCode, cfg.DefaultTargetName), t)
    else
      let q : String := if HasPrefix inp "t " then TrimSpace ⟨inp.data.drop 2⟩ else inp
      match lookupBoth cfg q t.api with
      | ((code, name, true), a) => (some (code, name), { api := a, out := t.out })
      | ((_, _, false), a) => (none, { api := a, out := t.out ++ [Effect.notFound q] })
  match found with
  | (none, t1) => (("", false), t1)
  | (some (code, name), t1) =>
    if curr ≠ code then
      ((code, true), { t1 with out := t1.out ++ [Effect.targetChanged name (brackets code)] })
    else ((code, true), t1)

/-- Whether the loop of `interact` is still running. -/
inductive Status where
  | active
  | closed
  deriving DecidableEq

/-- The two variables `source` and `target` of `interact`. -/
structure Session where
  source : String
  target : String
  deriving DecidableEq

/-- The body of the `switch` of `interact` for an input other than `q`. -/
def dispatch {σ : Type} (cfg : SessionConfig σ) (s : Session) (inp : String) (t : Term σ) :
    Session × Term σ :=
  if inp = "h" then (s, { t with out := t.out ++ [Effect.help] })
  else if inp = "l" ∨ HasPrefix inp "l " = true then (s, commandLangCodes cfg inp t)
  else if inp = "s" ∨ HasPrefix inp "s " = true then
    match commandSource cfg inp s.source t with
    | ((code, true), t1) => ({ s with source := code }, t1)
    | ((_, false), t1) => (s, t1)
  else if inp.utf8ByteSize ≤ 2 ∨ HasPrefix inp "t " = true then
    match commandTarget cfg inp s.target t with
    | ((code, true), t1) => ({ s with target := code }, t1)
    | ((_, false), t1) => (s, t1)
  else
    match cfg.Ptranslate inp s.target t.api with
    | ((out, true), a) => (s, { api := a, out := t.out ++ [Effect.result out] })
    | ((_, false), a) =>
      match cfg.Translate inp s.source s.target a with
      | (Except.error err, a2) =>
        (s, { api := a2,
              out := t.out ++ [Effect.translateCall inp s.source s.target, Effect.error err] })
      | (Except.ok out, a2) =>
        (s, { api := a2,
              out := t.out ++ [Effect.translateCall inp s.source s.target, Effect.result out] })

/-- One turn of the `for` loop of `interact`; `prompt` is what `line.Prompt(pr)`
returns, an error or the line read. -/
def interactStep {σ : Type} (cfg : SessionConfig σ) (s : Session)
    (prompt : Except String String) (t : Term σ) : Status × Session × Term σ :=
  match prompt with
  | Except.error err => (Status.active, s, { t with out := t.out ++ [Effect.promptError err] })
  | Except.ok raw =>
    if raw.utf8ByteSize ≤ 0 then (Status.active, s, t)
    else
      let inp := TrimSpace raw
      if inp = "q" then (Status.closed, s, { t with out := t.out ++ [Effect.farewell] })
      else
        match dispatch cfg s inp t with
        | (s1, t1) => (Status.active, s1, { t1 with out := t1.out ++ [Effect.history inp] })

/-- The `for` loop of `interact` on the successive results of `line.Prompt`; it
stops at the turn that closes the session and is otherwise still active, waiting
for the next line, when the results are used up. -/
def interactLoop {σ : Type} (cfg : SessionConfig σ) :
    List (Except String String) → Session → Term σ → Status × Session × Term σ
  | [], s, t => (Status.active, s, t)
  | p :: ps, s, t =>
    match interactStep cfg s p t with
    | (Status.closed, s1, t1) => (Status.closed, s1, t1)
    | (Status.active, s1, t1) => interactLoop cfg ps s1 t1

/-- Go `interact`, given what the successive calls of `line.Prompt` return. -/
def interact {σ : Type} (cfg : SessionConfig σ) (prompts : List (Except String String))
    (t : Term σ) : Status × Session × Term σ :=
  interactLoop cfg prompts
    { source := cfg.DefaultSourceCode, target := cfg.DefaultTargetCode }
    { t with out := t.out ++ [Effect.welcome, Effect.help] }

/-! ## Vocabulary of the statements -/

/-- The lines `ls`, each followed by a newline, concatenated in order. -/
def joinLines (ls : List String) : String :=
  String.join (ls.map (fun s => s ++ "\n"))

/-- The summed rune count of the lines `ls`; newlines are not counted. -/
def runeCount (ls : List String) : Nat :=
  (ls.map String.length).sum

/-- The pipeline run on chunks that are already cut: the backend is called on
the chunks in order, each result is written before the next chunk is taken, and
the first error ends the run.  After the last chunk comes the scan that reports
the end of the stream. -/
def feed {σ : Type} (cfg : Config σ) : List String → Run σ → Option String × Run σ
  | [], st => (none, { st with log := st.log ++ [Event.scan "" true] })
  | c :: cs, st =>
    match cfg.Translate c cfg.DefaultSourceCode cfg.DefaultTargetCode st.api with
    | (Except.error err, api) =>
      (some err,
        { w := st.w, api := api,
          log := st.log ++
            [Event.scan c false, Event.call c cfg.DefaultSourceCode cfg.DefaultTargetCode] })
    | (Except.ok out, api) =>
      feed cfg cs
        { w := st.w ++ out, api := api,
          log := st.log ++
            [Event.scan c false, Event.call c cfg.DefaultSourceCode cfg.DefaultTargetCode,
              Event.write out] }

/-- The record of `k` complete rounds on the chunks `cs`: for `i < k` the scan
that returned chunk `i`, the backend call on it and the write of its result
`outs i`. -/
def rounds {σ : Type} (cfg : Config σ) (cs : List String) (outs : Nat → String)
    (k : Nat) : List Event :=
  (List.range k).flatMap fun i =>
    [Event.scan (cs.getD i "") false,
      Event.call (cs.getD i "") cfg.DefaultSourceCode cfg.DefaultTargetCode,
      Event.write (outs i)]

/-- Three lines of ten runes each. -/
def tenRuneLines : List String := ["aaaaaaaaaa", "bbbbbbbbbb", "cccccccccc"]

/-- A configuration with the limit 1 whose backend counts its calls, brackets
the text it is given and fails on its third call. -/
def failsOnThird : Config Nat where
  DefaultSourceCode := "en"
  DefaultTargetCode := "ja"
  APILimitNChars := 1
  Translate := fun text _ _ calls =>
    if calls = 2 then (Except.error "backend failed", calls + 1)
    else (Except.ok ("[" ++ text ++ "]"), calls + 1)

/-- A configuration whose backend fails on every call. -/
def alwaysFails : Config Unit where
  DefaultSourceCode := "en"
  DefaultTargetCode := "ja"
  APILimitNChars := 1000
  Translate := fun _ _ _ u => (Except.error "backend failed", u)

/-- A session configured with the defaults `en` and `ja`: the API endpoint
finds no language, `tran.LookupPlang` is the static `LookupLang` on the table in
source order, there is no local phrase, and the backend brackets its text. -/
def demoSession : SessionConfig Unit where
  DefaultSourceCode := "en"
  DefaultTargetCode := "ja"
  APILimitNChars := 1000
  Translate := fun text _ _ u => (Except.ok (("[" ++ text) ++ "]"), u)
  DefaultSourceName := "English"
  DefaultTargetName := "Japanese"
  APILookupLang := fun _ u => (("", "", false), u)
  LookupPlang := fun q u =>
    match LookupLang Char.toLower iso639map q with
    | (code, name, none) => ((code, name, true), u)
    | (_, _, some _) => (("", "", false), u)
  Ptranslate := fun _ _ u => (("", false), u)
  LangListContains := fun _ u => ([], u)

/-- A sort to stand for `sort.Slice`: insertion sort with the given comparison. -/
def insertionSortSlice (less : ISO639 → ISO639 → Bool) (l : List ISO639) : List ISO639 :=
  l.insertionSort (fun x y => less y x = false)

/-- A configuration with the limit 0 whose backend fails on every call. -/
def zeroLimit : Config Unit where
  DefaultSourceCode := "en"
  DefaultTargetCode := "ja"
  APILimitNChars := 0
  Translate := fun _ _ _ u => (Except.error "backend failed", u)

/-- A line of 65536 bytes, the letter `x` repeated. -/
def longLine : String := ⟨List.replicate 65536 'x'⟩

/-- A line of 70000 bytes, the letter `x` repeated. -/
def veryLongLine : String := ⟨List.replicate 70000 'x'⟩

/-! ## Properties of `LookupLang` -/

theorem Contains_iff (s t : String) : Contains s t = true ↔ t.data <:+: s.data := by
  unfold Contains
  rw [List.any_eq_true, List.infix_iff_prefix_suffix]
  constructor
  · rintro ⟨u, hu, hp⟩
    exact ⟨u, List.isPrefixOf_iff_prefix.1 hp, (List.mem_tails _ _).1 hu⟩
  · rintro ⟨u, hp, hu⟩
    exact ⟨u, (List.mem_tails _ _).2 hu, List.isPrefixOf_iff_prefix.2 hp⟩

theorem Contains_eq_false_iff (s t : String) :
    Contains s t = false ↔ ¬ t.data <:+: s.data := by
  rw [← Contains_iff, Bool.not_eq_true]

theorem rangeContains_eq_none (lo : Char → Char) (c : String)
    (l : List (String × String)) :
    rangeContains lo c l = none ↔ ∀ e ∈ l, Contains (ToLower lo e.2) c = false := by
  induction l with
  | nil => simp [rangeContains]
  | cons e rest ih =>
    obtain ⟨k, v⟩ := e
    by_cases h : Contains (ToLower lo v) c = true
    · simp [rangeContains, h]
    · simp [rangeContains, h, ih]

theorem rangeContains_eq_some (lo : Char → Char) (c : String)
    (l : List (String × String)) (e : String × String)
    (h : rangeContains lo c l = some e) :
    e ∈ l ∧ Contains (ToLower lo e.2) c = true := by
  induction l with
  | nil => simp [rangeContains] at h
  | cons e' rest ih =>
    obtain ⟨k, v⟩ := e'
    by_cases hc : Contains (ToLower lo v) c = true
    · simp [rangeContains, hc] at h
      subst h
      exact ⟨List.mem_cons_self _ _, hc⟩
    · simp [rangeContains, hc] at h
      exact ⟨List.mem_cons_of_mem _ (ih h).1, (ih h).2⟩

theorem lookup_mem {l : List (String × String)} {k v : String}
    (h : l.lookup k = some v) : (k, v) ∈ l := by
  induction l with
  | nil => simp at h
  | cons e rest ih =>
    obtain ⟨a, b⟩ := e
    by_cases hk : k = a
    · subst hk
      simp [List.lookup] at h
      simp [h]
    · have hb : (k == a) = false := by simpa using hk
      simp [List.lookup, hb] at h
      exact List.mem_cons_of_mem _ (ih h)

theorem lookup_of_mem {l : List (String × String)} (nd : (l.map Prod.fst).Nodup)
    {k v : String} (h : (k, v) ∈ l) : l.lookup k = some v := by
  induction l with
  | nil => simp at h
  | cons e rest ih =>
    obtain ⟨a, b⟩ := e
    simp only [List.map_cons, List.nodup_cons] at nd
    by_cases hk : k = a
    · subst hk
      rcases List.mem_cons.1 h with h1 | h1
      · simp only [Prod.mk.injEq] at h1
        simp [List.lookup, h1.2]
      · exact absurd (List.mem_map_of_mem Prod.fst h1) nd.1
    · have hb : (k == a) = false := by simpa using hk
      rcases List.mem_cons.1 h with h1 | h1
      · simp only [Prod.mk.injEq] at h1
        exact absurd h1.1 hk
      · simp [List.lookup, hb, ih nd.2 h1]

theorem lookup_eq_none {l : List (String × String)} {k : String} :
    l.lookup k = none ↔ k ∉ l.map Prod.fst := by
  induction l with
  | nil => simp
  | cons e rest ih =>
    obtain ⟨a, b⟩ := e
    by_cases hk : k = a
    · subst hk
      simp [List.lookup]
    · have hb : (k == a) = false := by simpa using hk
      simp [List.lookup, hb, ih, hk]

set_option maxRecDepth 100000 in
theorem iso639map_nodup_keys : (iso639map.map Prod.fst).Nodup := by decide

theorem ToLower_ascii (lo : Char → Char) (hlo : LowerSpec lo) (s : String)
    (h : ∀ c ∈ s.data, c.toNat < 128 ∨ c ∈ tableRunes) :
    ToLower lo s = ToLower Char.toLower s := by
  unfold ToLower
  congr 1
  apply List.map_congr_left
  intro c hc
  rcases h c hc with h1 | h1
  · exact hlo.ascii c h1
  · rw [hlo.table c h1]
    have hfix : ∀ d ∈ tableRunes, d = d.toLower := by decide
    exact hfix c h1

set_option maxRecDepth 100000 in
theorem iso639map_names_runes : ∀ e ∈ iso639map, ∀ c ∈ e.2.data,
    c.toNat < 128 ∨ c ∈ tableRunes := by decide

/-- C1. A query whose lowercase form is a code of the table is answered with
that code and the name the table gives it, whatever the order in which the map
is visited and whether or not the code also occurs inside other names. -/
theorem LookupLang_exact_code (lo : Char → Char) (order : List (String × String))
    (s n : String) (hkey : (ToLower lo s, n) ∈ iso639map) :
    LookupLang lo order s = (ToLower lo s, n, none) := by
  unfold LookupLang
  simp only [lookup_of_mem iso639map_nodup_keys hkey]

set_option maxRecDepth 100000 in
theorem LookupLang_exact_code_witness :
    (ToLower Char.toLower "ja", "Japanese") ∈ iso639map ∧
    Contains (ToLower Char.toLower "Azerbaijani") (ToLower Char.toLower "ja") = true ∧
    LookupLang Char.toLower iso639map "ja" = ("ja", "Japanese", none) :=
  ⟨by decide, by decide,
    LookupLang_exact_code Char.toLower iso639map "ja" "Japanese" (by decide)⟩

theorem LookupLang_of_lookup (lo : Char → Char) (order : List (String × String))
    (s n : String) (h : iso639map.lookup (ToLower lo s) = some n) :
    LookupLang lo order s = (ToLower lo s, n, none) := by
  unfold LookupLang
  simp only [h]

theorem LookupLang_of_range (lo : Char → Char) (order : List (String × String))
    (s : String) (e : String × String) (h : iso639map.lookup (ToLower lo s) = none)
    (hr : rangeContains lo (ToLower lo s) order = some e) :
    LookupLang lo order s = (e.1, e.2, none) := by
  unfold LookupLang
  simp only [h, hr]

theorem LookupLang_of_none (lo : Char → Char) (order : List (String × String))
    (s : String) (h : iso639map.lookup (ToLower lo s) = none)
    (hr : rangeContains lo (ToLower lo s) order = none) :
    LookupLang lo order s = ("", "", some (s ++ " is not found")) := by
  unfold LookupLang
  simp only [h, hr]

theorem rangeContains_perm_none (lo : Char → Char) (c : String)
    (order : List (String × String)) (horder : order.Perm iso639map) :
    rangeContains lo c order = none ↔
      ∀ e ∈ iso639map, ¬ c.data <:+: (ToLower lo e.2).data := by
  rw [rangeContains_eq_none]
  constructor
  · intro h e he
    exact (Contains_eq_false_iff _ _).1 (h e (horder.mem_iff.2 he))
  · intro h e he
    exact (Contains_eq_false_iff _ _).2 (h e (horder.mem_iff.1 he))

/-- C2. A query fails exactly when its lowercase form is not a code of the
table and occurs in the lowercased name of no entry; a failing call returns the
empty code, the empty name and the error `<query> is not found`. -/
theorem LookupLang_not_found_iff (lo : Char → Char) (order : List (String × String))
    (horder : order.Perm iso639map) (s : String) :
    ((LookupLang lo order s).2.2 ≠ none ↔
      (ToLower lo s ∉ iso639map.map Prod.fst ∧
        ∀ e ∈ iso639map, ¬ (ToLower lo s).data <:+: (ToLower lo e.2).data)) ∧
    ((LookupLang lo order s).2.2 ≠ none →
      LookupLang lo order s = ("", "", some (s ++ " is not found"))) := by
  have hscan := rangeContains_perm_none lo (ToLower lo s) order horder
  cases hl : iso639map.lookup (ToLower lo s) with
  | some n =>
    have hk : ¬ ToLower lo s ∉ iso639map.map Prod.fst := by
      rw [← lookup_eq_none, hl]
      simp
    rw [LookupLang_of_lookup lo order s n hl]
    exact ⟨⟨fun h => absurd rfl h, fun h => absurd h.1 hk⟩, fun h => absurd rfl h⟩
  | none =>
    have hk : ToLower lo s ∉ iso639map.map Prod.fst := lookup_eq_none.1 hl
    cases hr : rangeContains lo (ToLower lo s) order with
    | none =>
      rw [LookupLang_of_none lo order s hl hr]
      exact ⟨⟨fun _ => ⟨hk, hscan.1 hr⟩, fun _ => by simp⟩, fun _ => rfl⟩
    | some e =>
      have hn : ¬ ∀ e ∈ iso639map, ¬ (ToLower lo s).data <:+: (ToLower lo e.2).data := by
        rw [← hscan, hr]
        simp
      rw [LookupLang_of_range lo order s e hl hr]
      exact ⟨⟨fun h => absurd rfl h, fun h => absurd h.2 hn⟩, fun h => absurd rfl h⟩

set_option maxRecDepth 100000 in
theorem LookupLang_not_found_iff_witness :
    iso639map.reverse.Perm iso639map ∧
    LookupLang Char.toLower iso639map.reverse "xx" = ("", "", some "xx is not found") :=
  ⟨List.reverse_perm _,
    (LookupLang_not_found_iff Char.toLower iso639map.reverse (List.reverse_perm _) "xx").2
      (by decide)⟩

/-- C3, as the claim states it, fails: `sq` occurs in the name of exactly one
entry, `Basque` (code `eu`), yet the query `sq` is answered with the entry whose
code it is, `Albanian`. -/
theorem LookupLang_unique_substring_counterexample :
    iso639map.filter (fun e => Contains (ToLower Char.toLower e.2) (ToLower Char.toLower "sq"))
      = [("eu", "Basque")] ∧
    LookupLang Char.toLower iso639map "sq" = ("sq", "Albanian", none) ∧
    LookupLang Char.toLower iso639map "sq" ≠ ("eu", "Basque", none) := by
  decide

/-- C3, amended. A query whose lowercase form is not a code of the table and
occurs in the lowercased name of exactly one entry is answered with that entry,
whatever the order in which the map is visited. -/
theorem LookupLang_unique_substring (lo : Char → Char) (order : List (String × String))
    (horder : order.Perm iso639map) (s : String) (e : String × String)
    (hcode : ToLower lo s ∉ iso639map.map Prod.fst)
    (he : e ∈ iso639map)
    (hsub : (ToLower lo s).data <:+: (ToLower lo e.2).data)
    (huniq : ∀ e' ∈ iso639map, (ToLower lo s).data <:+: (ToLower lo e'.2).data → e' = e) :
    LookupLang lo order s = (e.1, e.2, none) := by
  have hl : iso639map.lookup (ToLower lo s) = none := lookup_eq_none.2 hcode
  cases hr : rangeContains lo (ToLower lo s) order with
  | none =>
    exact absurd hsub ((rangeContains_perm_none lo _ order horder).1 hr e he)
  | some e' =>
    obtain ⟨hmem, hc⟩ := rangeContains_eq_some lo _ order e' hr
    have := huniq e' (horder.mem_iff.1 hmem) ((Contains_iff _ _).1 hc)
    subst this
    exact LookupLang_of_range lo order s e' hl hr

set_option maxRecDepth 100000 in
theorem LookupLang_unique_substring_witness :
    LookupLang Char.toLower iso639map.reverse "japanese" = ("ja", "Japanese", none) :=
  LookupLang_unique_substring Char.toLower iso639map.reverse (List.reverse_perm _)
    "japanese" ("ja", "Japanese") (by decide) (by decide)
    ((Contains_iff _ _).1 (by decide))
    (fun e' he' h => by
      have hall : ∀ x ∈ iso639map,
          Contains (ToLower Char.toLower x.2) (ToLower Char.toLower "japanese") = true →
            x = ("ja", "Japanese") := by decide
      exact hall e' he' ((Contains_iff _ _).2 h))

/-- C4, as the claim states it, fails: when the map is visited in the order of
the source text, `North Ndebele` is met before any Norwegian entry and the query
`nor` is answered with the code `nd`. -/
theorem LookupLang_nor_counterexample :
    iso639map.Perm iso639map ∧
    LookupLang Char.toLower iso639map "nor" = ("nd", "North Ndebele", none) ∧
    (LookupLang Char.toLower iso639map "nor").1 ∉ ["no", "nb", "nn"] :=
  ⟨List.Perm.refl _, by decide, by decide⟩

set_option maxRecDepth 100000 in
theorem iso639map_nor : ∀ e ∈ iso639map,
    Contains (ToLower Char.toLower e.2) "nor" = true →
      e.1 ∈ ["no", "nb", "nn", "nd", "se"] := by decide

/-- C4, amended. In every order in which the map may be visited the query `nor`
succeeds, and the entry returned is one of the five whose names contain `nor`:
the three Norwegian ones, `North Ndebele` and `Northern Sami`. -/
theorem LookupLang_nor (lo : Char → Char) (hlo : LowerSpec lo)
    (order : List (String × String)) (horder : order.Perm iso639map) :
    (LookupLang lo order "nor").2.2 = none ∧
    (LookupLang lo order "nor").1 ∈ ["no", "nb", "nn", "nd", "se"] ∧
    ((LookupLang lo order "nor").1, (LookupLang lo order "nor").2.1) ∈ iso639map := by
  have hq : ToLower lo "nor" = "nor" := by
    rw [ToLower_ascii lo hlo "nor" (by decide)]
    decide
  have hl : iso639map.lookup (ToLower lo "nor") = none := by
    rw [hq]
    decide
  cases hr : rangeContains lo (ToLower lo "nor") order with
  | none =>
    have hno := (rangeContains_eq_none lo _ order).1 hr ("no", "Norwegian")
      (horder.mem_iff.2 (by decide))
    rw [hq, ToLower_ascii lo hlo _ (by decide)] at hno
    exact absurd hno (by decide)
  | some e =>
    obtain ⟨hmem, hc⟩ := rangeContains_eq_some lo _ order e hr
    have he : e ∈ iso639map := horder.mem_iff.1 hmem
    rw [hq, ToLower_ascii lo hlo _ (iso639map_names_runes e he)] at hc
    rw [LookupLang_of_range lo order "nor" e hl hr]
    exact ⟨rfl, iso639map_nor e he hc, he⟩

theorem LowerSpec_toLower : LowerSpec Char.toLower :=
  ⟨fun _ _ => rfl, by decide⟩

theorem LookupLang_nor_witness :
    LowerSpec Char.toLower ∧ iso639map.reverse.Perm iso639map ∧
    (LookupLang Char.toLower iso639map.reverse "nor").1 ∈ ["no", "nb", "nn", "nd", "se"] :=
  ⟨LowerSpec_toLower, List.reverse_perm _,
    (LookupLang_nor Char.toLower LowerSpec_toLower iso639map.reverse
      (List.reverse_perm _)).2.1⟩

/-! ## Properties of `scanText` -/

theorem utf8ByteSize_go_pos (c : Char) (cs : List Char) :
    0 < String.utf8ByteSize.go (c :: cs) := by
  have := Char.utf8Size_pos c
  simp only [String.utf8ByteSize.go]
  omega

theorem utf8ByteSize_eq_zero (s : String) : s.utf8ByteSize = 0 ↔ s = "" := by
  obtain ⟨l⟩ := s
  cases l with
  | nil => exact ⟨fun _ => rfl, fun _ => rfl⟩
  | cons c cs =>
    have hpos := utf8ByteSize_go_pos c cs
    constructor
    · intro h
      have : String.utf8ByteSize.go (c :: cs) = 0 := h
      omega
    · intro h
      exact absurd (congrArg String.data h) (by simp)

theorem utf8ByteSize_replicate_x (k : Nat) :
    (String.mk (List.replicate k 'x')).utf8ByteSize = k := by
  induction k with
  | zero => rfl
  | succ k ih =>
    have h1 : String.utf8ByteSize.go (List.replicate k 'x') = k := ih
    show String.utf8ByteSize.go (List.replicate (k + 1) 'x') = k + 1
    rw [List.replicate_succ]
    simp only [String.utf8ByteSize.go, h1]
    rfl

theorem longLine_size : longLine.utf8ByteSize = 65536 :=
  utf8ByteSize_replicate_x 65536

/-- A line of 65536 bytes is too long for the scanner: the first `Scan` fails,
the second returns what the buffer holds, and the lines after it are lost. -/
theorem NewScanner_longLine (rest : List String) :
    NewScanner (longLine :: rest) =
      [none, some (dropCR ⟨takeBytes MaxScanTokenSize longLine.data⟩)] := by
  have h : ¬ longLine.utf8ByteSize < MaxScanTokenSize := by
    rw [longLine_size]
    decide
  simp only [NewScanner, h, if_false]

/-- On lines that are all shorter than the buffer the scanner returns every
line, without its carriage return. -/
theorem NewScanner_short (lines : List String)
    (h : ∀ l ∈ lines, l.utf8ByteSize < MaxScanTokenSize) :
    NewScanner lines = (lines.map dropCR).map some := by
  induction lines with
  | nil => rfl
  | cons l rest ih =>
    have hl := h l (List.mem_cons_self _ _)
    simp only [NewScanner, hl, if_true, List.map_cons,
      ih (fun x hx => h x (List.mem_cons_of_mem _ hx))]

theorem joinLines_nil : joinLines [] = "" := rfl

theorem joinLines_cons (s : String) (ls : List String) :
    joinLines (s :: ls) = (s ++ "\n") ++ joinLines ls := by
  apply String.ext
  simp [joinLines, String.data_join]

theorem joinLines_append (a b : List String) :
    joinLines (a ++ b) = joinLines a ++ joinLines b := by
  induction a with
  | nil => simp [joinLines_nil]
  | cons s a ih => simp [joinLines_cons, ih, String.append_assoc]

theorem joinLines_ne_empty (s : String) (ls : List String) : joinLines (s :: ls) ≠ "" := by
  intro h
  have := congrArg String.data h
  simp [joinLines_cons] at this

theorem runeCount_cons (s : String) (ls : List String) :
    runeCount (s :: ls) = s.length + runeCount ls := by
  simp [runeCount]

theorem runeCount_append (a b : List String) :
    runeCount (a ++ b) = runeCount a + runeCount b := by
  simp [runeCount]

theorem scanLoop_done (n : Int) (sc : Scanner) (i : Int) (sb : String) (h : ¬ i < n) :
    scanLoop n sc i sb = (sb, sc) := by
  unfold scanLoop
  rw [if_neg h]

theorem scanLoop_nil (n : Int) (i : Int) (sb : String) : scanLoop n [] i sb = (sb, []) := by
  unfold scanLoop
  split <;> rfl

theorem scanLoop_none (n : Int) (rest : Scanner) (i : Int) (sb : String) (h : i < n) :
    scanLoop n (none :: rest) i sb = (sb, rest) := by
  unfold scanLoop
  rw [if_pos h]

theorem scanLoop_some (n : Int) (s : String) (rest : Scanner) (i : Int) (sb : String)
    (h : i < n) :
    scanLoop n (some s :: rest) i sb = scanLoop n rest (i + s.length) ((sb ++ s) ++ "\n") := by
  rw [scanLoop]
  rw [if_pos h]

/-- On a scanner whose first `k` results are lines that take the counter to the
limit, and no fewer do, the loop reads exactly those lines and leaves the rest
of the scanner as it is. -/
theorem scanLoop_reach (n : Int) (tail : Scanner) : ∀ (l : List String) (k : Nat)
    (i : Int) (sb : String), k ≤ l.length →
    (∀ j, j < k → i + (runeCount (l.take j) : Int) < n) →
    n ≤ i + (runeCount (l.take k) : Int) →
    scanLoop n (l.map some ++ tail) i sb =
      (sb ++ joinLines (l.take k), (l.drop k).map some ++ tail) := by
  intro l
  induction l with
  | nil =>
    intro k i sb hk _ hn
    have : k = 0 := Nat.le_zero.1 hk
    subst this
    simp only [List.take_nil, runeCount, List.map_nil, List.sum_nil, Nat.cast_zero,
      add_zero] at hn
    rw [scanLoop_done n _ i sb (not_lt.2 hn)]
    simp [joinLines_nil]
  | cons s rest ih =>
    intro k i sb hk hlt hn
    cases k with
    | zero =>
      simp only [List.take_zero, runeCount, List.map_nil, List.sum_nil, Nat.cast_zero,
        add_zero] at hn
      rw [scanLoop_done n _ i sb (not_lt.2 hn)]
      simp [joinLines_nil]
    | succ k =>
      have hi : i < n := by simpa [runeCount] using hlt 0 (Nat.succ_pos k)
      rw [List.map_cons, List.cons_append, scanLoop_some n s _ i sb hi,
        ih k (i + s.length) ((sb ++ s) ++ "\n") (by simpa using hk)
          (fun j hj => by
            have := hlt (j + 1) (by omega)
            simp only [List.take_succ_cons, runeCount_cons] at this
            push_cast at this
            omega)
          (by
            simp only [List.take_succ_cons, runeCount_cons] at hn
            push_cast at hn
            omega)]
      simp only [List.take_succ_cons, List.drop_succ_cons, joinLines_cons,
        String.append_assoc]

/-- The loop on lines only consumes some prefix `l.take k`: every shorter
prefix leaves the counter below `n`, and the loop stops because the counter
reached `n` or the lines ran out. -/
theorem scanLoop_spec (n : Int) : ∀ (l : List String) (i : Int) (sb : String),
    ∃ k, k ≤ l.length ∧
      scanLoop n (l.map some) i sb = (sb ++ joinLines (l.take k), (l.drop k).map some) ∧
      (∀ j, j < k → i + (runeCount (l.take j) : Int) < n) ∧
      (k = l.length ∨ n ≤ i + (runeCount (l.take k) : Int)) := by
  intro l
  induction l with
  | nil =>
    intro i sb
    refine ⟨0, le_refl _, ?_, fun j hj => absurd hj (Nat.not_lt_zero j), Or.inl rfl⟩
    rw [List.map_nil, scanLoop_nil]
    simp [joinLines_nil]
  | cons s rest ih =>
    intro i sb
    by_cases hi : i < n
    · obtain ⟨k, hk, hloop, hlt, hstop⟩ := ih (i + s.length) ((sb ++ s) ++ "\n")
      refine ⟨k + 1, by simpa using hk, ?_, ?_, ?_⟩
      · rw [List.map_cons, scanLoop_some n s _ i sb hi, hloop]
        simp only [List.take_succ_cons, List.drop_succ_cons, joinLines_cons,
          String.append_assoc]
      · intro j hj
        cases j with
        | zero => simpa [runeCount] using hi
        | succ j =>
          have := hlt j (by omega)
          simp only [List.take_succ_cons, runeCount_cons]
          push_cast
          omega
      · rcases hstop with h | h
        · exact Or.inl (by simp [h])
        · refine Or.inr ?_
          simp only [List.take_succ_cons, runeCount_cons]
          push_cast
          omega
    · refine ⟨0, Nat.zero_le _, ?_, fun j hj => absurd hj (Nat.not_lt_zero j), Or.inr ?_⟩
      · rw [scanLoop_done n _ i sb hi]
        simp [joinLines_nil]
      · simp only [List.take_zero, runeCount, List.map_nil, List.sum_nil]
        push_cast
        omega

/-- On any scanner the loop appends lines `toks` that the scanner returns one
after another, and leaves a final part `rest` of the scanner; between the two
lies at most the one failed `Scan` that ended the loop.  Before each line is
read the counter is below the limit. -/
theorem scanLoop_tokens (n : Int) : ∀ (sc : Scanner) (i : Int) (sb : String),
    ∃ (toks : List String) (mid rest : Scanner),
      scanLoop n sc i sb = (sb ++ joinLines toks, rest) ∧
      sc = toks.map some ++ mid ++ rest ∧
      (∀ j, j < toks.length → i + (runeCount (toks.take j) : Int) < n) := by
  intro sc
  induction sc with
  | nil =>
    intro i sb
    refine ⟨[], [], [], ?_, rfl, fun j hj => absurd hj (Nat.not_lt_zero j)⟩
    rw [scanLoop_nil]
    simp [joinLines_nil]
  | cons o r ih =>
    intro i sb
    by_cases hi : i < n
    · cases o with
      | none =>
        refine ⟨[], [none], r, ?_, rfl, fun j hj => absurd hj (Nat.not_lt_zero j)⟩
        rw [scanLoop_none n r i sb hi]
        simp [joinLines_nil]
      | some s =>
        obtain ⟨toks, mid, rest, hloop, hsc, hlt⟩ := ih (i + s.length) ((sb ++ s) ++ "\n")
        refine ⟨s :: toks, mid, rest, ?_, ?_, ?_⟩
        · rw [scanLoop_some n s r i sb hi, hloop]
          simp only [joinLines_cons, String.append_assoc]
        · rw [hsc]
          simp
        · intro j hj
          cases j with
          | zero => simpa [runeCount] using hi
          | succ j =>
            have := hlt j (by simpa using hj)
            simp only [List.take_succ_cons, runeCount_cons]
            push_cast
            omega
    · refine ⟨[], [], o :: r, ?_, rfl, fun j hj => absurd hj (Nat.not_lt_zero j)⟩
      rw [scanLoop_done n _ i sb hi]
      simp [joinLines_nil]

theorem scanText_of_loop (n : Int) (sc : Scanner) (out : String) (rest : Scanner)
    (h : scanLoop n sc 0 "" = (out, rest)) :
    scanText sc n = ⟨out, out.utf8ByteSize == 0, rest⟩ := by
  unfold scanText
  simp only [h]

theorem joinLines_eof_false (s : String) (ls : List String) :
    ((joinLines (s :: ls)).utf8ByteSize == 0) = false := by
  have h1 := joinLines_ne_empty s ls
  have h2 := (utf8ByteSize_eq_zero (joinLines (s :: ls))).not.2 h1
  simpa using h2

theorem scanText_nil (n : Int) : scanText [] n = ⟨"", true, []⟩ := by
  rw [scanText_of_loop n [] "" [] (scanLoop_nil n 0 "")]
  rfl

/-- With a limit of at least one, on a scanner that returns the lines `L` and
then ends, `scanText` returns the first `k` lines, `k` the least positive length
at which the rune count reaches the limit, or the number of lines when no
prefix reaches it. -/
theorem scanText_cut (n : Int) (hn : 1 ≤ n) (L : List String) (hL : L ≠ []) :
    ∃ k, 1 ≤ k ∧ k ≤ L.length ∧
      scanText (L.map some) n = ⟨joinLines (L.take k), false, (L.drop k).map some⟩ ∧
      (∀ j, 1 ≤ j → j < k → (runeCount (L.take j) : Int) < n) ∧
      (n ≤ (runeCount (L.take k) : Int) ∨ k = L.length) := by
  obtain ⟨k, hk, hloop, hlt, hstop⟩ := scanLoop_spec n L 0 ""
  have hk1 : 1 ≤ k := by
    rcases Nat.eq_zero_or_pos k with h0 | h0
    · subst h0
      rcases hstop with h | h
      · exact absurd (List.length_eq_zero.1 h.symm) hL
      · simp [runeCount] at h
        omega
    · exact h0
  refine ⟨k, hk1, hk, ?_, ?_, ?_⟩
  · rw [String.empty_append] at hloop
    rw [scanText_of_loop n _ _ _ hloop]
    cases L with
    | nil => exact absurd rfl hL
    | cons s rest =>
      obtain ⟨k', rfl⟩ : ∃ k', k = k' + 1 := ⟨k - 1, by omega⟩
      rw [List.take_succ_cons, joinLines_eof_false]
  · intro j _ hj
    simpa using hlt j hj
  · rcases hstop with h | h
    · exact Or.inr h
    · exact Or.inl (by simpa using h)

/-- With a limit of at least one, on a scanner that first returns the lines
`L`, whose rune count reaches the limit, `scanText` returns the shortest prefix
of `L` that reaches the limit and leaves the rest of the scanner as it is. -/
theorem scanText_reach (n : Int) (hn : 1 ≤ n) (L : List String) (tail : Scanner)
    (hreach : n ≤ (runeCount L : Int)) :
    ∃ k, 1 ≤ k ∧ k ≤ L.length ∧
      scanText (L.map some ++ tail) n =
        ⟨joinLines (L.take k), false, (L.drop k).map some ++ tail⟩ ∧
      (∀ j, 1 ≤ j → j < k → (runeCount (L.take j) : Int) < n) ∧
      n ≤ (runeCount (L.take k) : Int) := by
  obtain ⟨k, hk, -, hlt, hstop⟩ := scanLoop_spec n L 0 ""
  have hn' : n ≤ (0 : Int) + (runeCount (L.take k) : Int) := by
    rcases hstop with h | h
    · rw [h, List.take_length]
      simpa using hreach
    · exact h
  have hk1 : 1 ≤ k := by
    rcases Nat.eq_zero_or_pos k with h0 | h0
    · subst h0
      simp [runeCount] at hn'
      omega
    · exact h0
  have hloop := scanLoop_reach n tail L k 0 "" hk hlt hn'
  refine ⟨k, hk1, hk, ?_, fun j _ hj => by simpa using hlt j hj, by simpa using hn'⟩
  rw [String.empty_append] at hloop
  rw [scanText_of_loop n _ _ _ hloop]
  cases L with
  | nil => simp at hk; omega
  | cons s rest =>
    obtain ⟨k', rfl⟩ : ∃ k', k = k' + 1 := ⟨k - 1, by omega⟩
    rw [List.take_succ_cons, joinLines_eof_false]

/-- With the limit 1, on a stream whose first line has 65536 bytes `scanText`
returns the empty string and `eof = true`. -/
theorem scanText_longLine (rest : List String) :
    scanText (NewScanner (longLine :: rest)) 1 =
      ⟨"", true, [some (dropCR ⟨takeBytes MaxScanTokenSize longLine.data⟩)]⟩ := by
  rw [NewScanner_longLine,
    scanText_of_loop 1 _ "" _ (scanLoop_none 1 _ 0 "" (by decide))]
  rfl

/-- C6, as the claim states it, fails: with the limit 1 and two lines left, the
first of 65536 bytes, `scanText` returns the empty string and `eof = true`,
because `Scan` fails on a line that does not fit the buffer of the scanner. -/
theorem scanText_spec_counterexample :
    (1 : Int) ≤ 1 ∧ [longLine, "cd"] ≠ [] ∧
    (scanText (NewScanner [longLine, "cd"]) 1).out = "" ∧
    (scanText (NewScanner [longLine, "cd"]) 1).eof = true := by
  refine ⟨le_refl _, by simp, ?_, ?_⟩ <;> rw [scanText_longLine]

/-- C6, amended. Let every line left be shorter than the buffer of the scanner,
65536 bytes.  With a limit of at least one and at least one line left,
`scanText` consumes the shortest non-empty prefix of the lines whose rune count
reaches the limit, or every line when none does, and returns those lines, each
without its carriage return and with a newline, with `eof = false`; with no line
left it returns the empty string and `eof = true`. -/
theorem scanText_spec (n : Int) (hn : 1 ≤ n) (L : List String)
    (hshort : ∀ l ∈ L, l.utf8ByteSize < MaxScanTokenSize) :
    (L ≠ [] → ∃ k, 1 ≤ k ∧ k ≤ L.length ∧
      scanText (NewScanner L) n =
        ⟨joinLines ((L.take k).map dropCR), false, NewScanner (L.drop k)⟩ ∧
      (∀ j, 1 ≤ j → j < k → (runeCount ((L.take j).map dropCR) : Int) < n) ∧
      (n ≤ (runeCount ((L.take k).map dropCR) : Int) ∨ k = L.length)) ∧
    scanText (NewScanner []) n = ⟨"", true, NewScanner []⟩ := by
  refine ⟨fun hL => ?_, scanText_nil n⟩
  have hT : L.map dropCR ≠ [] := by
    intro h
    exact hL (List.map_eq_nil_iff.1 h)
  obtain ⟨k, hk1, hk, hscan, hlt, hstop⟩ := scanText_cut n hn (L.map dropCR) hT
  rw [List.length_map] at hk hstop
  refine ⟨k, hk1, hk, ?_, ?_, ?_⟩
  · rw [NewScanner_short L hshort, hscan,
      NewScanner_short (L.drop k) (fun l hl => hshort l (List.mem_of_mem_drop hl))]
    simp only [List.map_take, List.map_drop]
  · intro j hj1 hjk
    rw [List.map_take]
    exact hlt j hj1 hjk
  · rw [List.map_take]
    exact hstop

theorem scanText_spec_witness :
    (1 : Int) ≤ 15 ∧ (∀ l ∈ tenRuneLines, l.utf8ByteSize < MaxScanTokenSize) ∧
    scanText (NewScanner tenRuneLines) 15
      = ⟨"aaaaaaaaaa\nbbbbbbbbbb\n", false, NewScanner ["cccccccccc"]⟩ ∧
    scanText (NewScanner ["cccccccccc"]) 15 = ⟨"cccccccccc\n", false, NewScanner []⟩ ∧
    scanText (NewScanner []) 15 = ⟨"", true, NewScanner []⟩ ∧
    ∃ k, 1 ≤ k ∧ k ≤ tenRuneLines.length ∧
      scanText (NewScanner tenRuneLines) 15 =
        ⟨joinLines ((tenRuneLines.take k).map dropCR), false,
          NewScanner (tenRuneLines.drop k)⟩ ∧
      (∀ j, 1 ≤ j → j < k → (runeCount ((tenRuneLines.take j).map dropCR) : Int) < 15) ∧
      ((15 : Int) ≤ (runeCount ((tenRuneLines.take k).map dropCR) : Int) ∨
        k = tenRuneLines.length) :=
  ⟨by decide, by decide, by decide, by decide, by decide,
    (scanText_spec 15 (by decide) tenRuneLines (by decide)).1 (by decide)⟩

/-! ## Properties of the chunked reader -/

theorem scanAll_of_eof (n : Int) (sc : Scanner) (h : (scanText sc n).eof = true) :
    scanAll n sc = [] := by
  rw [scanAll]
  simp [h]

theorem scanAll_of_chunk (n : Int) (sc : Scanner) (out : String) (rest : Scanner)
    (h : scanText sc n = ⟨out, false, rest⟩) : scanAll n sc = out :: scanAll n rest := by
  rw [scanAll]
  simp [h]

theorem scanAll_nil (n : Int) : scanAll n [] = [] :=
  scanAll_of_eof n [] (by rw [scanText_nil])

theorem String_join_cons (a : String) (l : List String) :
    String.join (a :: l) = a ++ String.join l := by
  apply String.ext
  simp [String.data_join]

theorem String_join_append (a b : List String) :
    String.join (a ++ b) = String.join a ++ String.join b := by
  apply String.ext
  simp [String.data_join]

/-- What one call of `scanText` does on any scanner: it returns lines `toks`
that the scanner returns one after another, before each of which the count was
below the limit, and it leaves a final part of the scanner. -/
theorem scanText_tokens (n : Int) (sc : Scanner) :
    ∃ (toks : List String) (mid : Scanner),
      (scanText sc n).out = joinLines toks ∧
      sc = toks.map some ++ mid ++ (scanText sc n).sc ∧
      (∀ j, j < toks.length → (runeCount (toks.take j) : Int) < n) := by
  obtain ⟨toks, mid, rest, hloop, hsc, hlt⟩ := scanLoop_tokens n sc 0 ""
  rw [String.empty_append] at hloop
  refine ⟨toks, mid, ?_, ?_, fun j hj => by simpa using hlt j hj⟩
  · rw [scanText_of_loop n sc _ _ hloop]
  · rw [scanText_of_loop n sc _ _ hloop]
    exact hsc

theorem scanText_tokens_ne_nil (n : Int) (sc : Scanner) (toks : List String)
    (hout : (scanText sc n).out = joinLines toks) (h : (scanText sc n).eof = false) :
    toks ≠ [] := by
  intro h0
  subst h0
  have h1 : ((scanText sc n).out.utf8ByteSize == 0) = false := h
  rw [hout] at h1
  exact absurd h1 (by decide)

theorem scanText_shrinks (sc : Scanner) (n : Int) (h : (scanText sc n).eof = false) :
    (scanText sc n).sc.length < sc.length := by
  obtain ⟨toks, mid, hout, hsc, -⟩ := scanText_tokens n sc
  have hne := scanText_tokens_ne_nil n sc toks hout h
  have hlen := congrArg List.length hsc
  simp only [List.length_append, List.length_map] at hlen
  have : 0 < toks.length := List.length_pos.2 hne
  omega

theorem scanText_eta (sc : Scanner) (n : Int) (h : (scanText sc n).eof = false) :
    scanText sc n = ⟨(scanText sc n).out, false, (scanText sc n).sc⟩ := by
  cases hs : scanText sc n with
  | mk out eof rest =>
    rw [hs] at h
    simp only at h
    subst h
    rfl

/-- Every chunk is made of lines that the scanner returns one after another, at
least one, and the lines before the last total fewer runes than the limit. -/
theorem scanAll_chunk_tokens (n : Int) : ∀ (m : Nat) (sc : Scanner), sc.length ≤ m →
    ∀ c ∈ scanAll n sc, ∃ toks : List String, toks ≠ [] ∧ c = joinLines toks ∧
      toks.map some <:+: sc ∧ (runeCount toks.dropLast : Int) < n := by
  intro m
  induction m with
  | zero =>
    intro sc hlen c hc
    have : sc = [] := List.length_eq_zero.1 (Nat.le_zero.1 hlen)
    subst this
    rw [scanAll_nil] at hc
    exact absurd hc (List.not_mem_nil c)
  | succ m ih =>
    intro sc hlen c hc
    cases heof : (scanText sc n).eof with
    | true =>
      rw [scanAll_of_eof n sc heof] at hc
      exact absurd hc (List.not_mem_nil c)
    | false =>
      rw [scanAll_of_chunk n sc _ _ (scanText_eta sc n heof)] at hc
      obtain ⟨toks, mid, hout, hsc, hlt⟩ := scanText_tokens n sc
      rcases List.mem_cons.1 hc with h | h
      · have hne := scanText_tokens_ne_nil n sc toks hout heof
        refine ⟨toks, hne, h.trans hout, ?_, ?_⟩
        · exact ⟨[], mid ++ (scanText sc n).sc, by
            rw [List.nil_append, ← List.append_assoc]
            exact hsc.symm⟩
        · rw [List.dropLast_eq_take]
          exact hlt _ (Nat.sub_lt (List.length_pos.2 hne) Nat.one_pos)
      · have hshr := scanText_shrinks sc n heof
        obtain ⟨toks', hne', hc', hinf, hb⟩ := ih (scanText sc n).sc (by omega) c h
        refine ⟨toks', hne', hc', ?_, hb⟩
        exact hinf.trans (List.IsSuffix.isInfix ⟨toks.map some ++ mid, hsc.symm⟩)

/-- On a scanner that returns the lines `lines` and then ends, the chunks are
the lines cut into consecutive non-empty groups; in each group the lines before
the last total fewer runes than the limit. -/
theorem scanAll_groups (n : Int) (hn : 1 ≤ n) : ∀ (m : Nat) (lines : List String),
    lines.length ≤ m →
    ∃ groups : List (List String), groups.flatten = lines ∧
      scanAll n (lines.map some) = groups.map joinLines ∧
      ∀ g ∈ groups, g ≠ [] ∧ (runeCount g.dropLast : Int) < n := by
  intro m
  induction m with
  | zero =>
    intro lines hlen
    have : lines = [] := List.length_eq_zero.1 (Nat.le_zero.1 hlen)
    subst this
    exact ⟨[], rfl, scanAll_nil n, fun g hg => absurd hg (List.not_mem_nil g)⟩
  | succ m ih =>
    intro lines hlen
    by_cases hL : lines = []
    · subst hL
      exact ⟨[], rfl, scanAll_nil n, fun g hg => absurd hg (List.not_mem_nil g)⟩
    · obtain ⟨k, hk1, hk, hscan, hlt, _⟩ := scanText_cut n hn lines hL
      obtain ⟨groups, hflat, hall, hbound⟩ := ih (lines.drop k) (by
        rw [List.length_drop]
        omega)
      refine ⟨lines.take k :: groups, ?_, ?_, ?_⟩
      · rw [List.flatten_cons, hflat, List.take_append_drop]
      · rw [scanAll_of_chunk n _ _ _ hscan, hall, List.map_cons]
      · intro g hg
        rcases List.mem_cons.1 hg with h | h
        · subst h
          refine ⟨?_, ?_⟩
          · intro h0
            have := congrArg List.length h0
            rw [List.length_take, List.length_nil] at this
            omega
          · rw [List.dropLast_eq_take, List.length_take, List.take_take,
              Nat.min_eq_left hk, Nat.min_eq_left (Nat.sub_le k 1)]
            rcases Nat.eq_or_lt_of_le hk1 with h1 | h1
            · rw [← h1]
              simp [runeCount]
              omega
            · exact hlt (k - 1) (by omega) (by omega)
        · exact hbound g h

theorem NewScanner_append_short (pre rest : List String)
    (h : ∀ l ∈ pre, l.utf8ByteSize < MaxScanTokenSize) :
    NewScanner (pre ++ rest) = (pre.map dropCR).map some ++ NewScanner rest := by
  induction pre with
  | nil => rfl
  | cons l pre ih =>
    have hl := h l (List.mem_cons_self _ _)
    have ih' := ih (fun x hx => h x (List.mem_cons_of_mem _ hx))
    rw [List.cons_append, NewScanner, if_pos hl, ih']
    rfl

/-- C5, as the claim states it, fails: with the limit 1, on a stream of two
lines of which the first has 65536 bytes, the reader returns no chunk at all, so
both lines are lost. -/
theorem scanAll_roundtrip_counterexample :
    (1 : Int) ≤ 1 ∧
    scanAll 1 (NewScanner [longLine, "cd"]) = [] ∧
    String.join (scanAll 1 (NewScanner [longLine, "cd"])) ≠ joinLines [longLine, "cd"] ∧
    String.join (scanAll 1 (NewScanner [longLine, "cd"]))
      ≠ joinLines ([longLine, "cd"].map dropCR) := by
  have h : scanAll 1 (NewScanner [longLine, "cd"]) = [] :=
    scanAll_of_eof 1 _ (by rw [scanText_longLine])
  refine ⟨le_refl _, h, ?_, ?_⟩
  · rw [h]
    exact (joinLines_ne_empty _ _).symm
  · rw [h]
    exact (joinLines_ne_empty _ _).symm

/-- C5, amended. For a limit of at least one and a stream in which every line
is shorter than the buffer of the scanner, 65536 bytes, the chunks that the
repeated calls of `scanText` return, concatenated in order, are the lines of the
stream in order, each without its carriage return and followed by a newline. -/
theorem scanAll_roundtrip (n : Int) (hn : 1 ≤ n) (lines : List String)
    (hshort : ∀ l ∈ lines, l.utf8ByteSize < MaxScanTokenSize) :
    String.join (scanAll n (NewScanner lines)) = joinLines (lines.map dropCR) := by
  obtain ⟨groups, hflat, hall, -⟩ :=
    scanAll_groups n hn (lines.map dropCR).length (lines.map dropCR) (le_refl _)
  rw [NewScanner_short lines hshort, hall, ← hflat]
  clear hall hflat
  induction groups with
  | nil => rfl
  | cons g gs ih =>
    rw [List.map_cons, String_join_cons, List.flatten_cons, joinLines_append, ih]

theorem scanAll_roundtrip_witness :
    (1 : Int) ≤ 15 ∧ (∀ l ∈ tenRuneLines, l.utf8ByteSize < MaxScanTokenSize) ∧
    String.join (scanAll 15 (NewScanner tenRuneLines))
      = "aaaaaaaaaa\nbbbbbbbbbb\ncccccccccc\n" :=
  ⟨by decide, by decide,
    (scanAll_roundtrip 15 (by decide) tenRuneLines (by decide)).trans (by decide)⟩

theorem scanAll_tenRuneLines :
    scanAll 15 (NewScanner tenRuneLines) =
      [joinLines ["aaaaaaaaaa", "bbbbbbbbbb"], joinLines ["cccccccccc"]] := by
  rw [scanAll_of_chunk 15 (NewScanner tenRuneLines)
      (joinLines ["aaaaaaaaaa", "bbbbbbbbbb"]) (NewScanner ["cccccccccc"]) (by decide),
    scanAll_of_chunk 15 (NewScanner ["cccccccccc"]) (joinLines ["cccccccccc"]) []
      (by decide),
    scanAll_nil]

/-- C7, as the claim states it, fails: with the limit 15 the first chunk of
three ten-rune lines holds two lines that total 20 runes. -/
theorem scanAll_bound_counterexample :
    (1 : Int) ≤ 15 ∧
    joinLines ["aaaaaaaaaa", "bbbbbbbbbb"] ∈ scanAll 15 (NewScanner tenRuneLines) ∧
    ¬ (runeCount ["aaaaaaaaaa", "bbbbbbbbbb"] ≤ 15 ∨
        ["aaaaaaaaaa", "bbbbbbbbbb"].length = 1) := by
  refine ⟨by decide, ?_, by decide⟩
  rw [scanAll_tenRuneLines]
  exact List.mem_cons_self _ _

/-- C7, amended. For a limit of at least one, every chunk consists of lines
that the scanner returns one after another, at least one, and the lines before
the last total fewer runes than the limit: only the last line of a chunk can
take it to the limit or beyond.  When every line of the stream is shorter than
the buffer of the scanner, the chunks taken in order are the lines of the
stream, without their carriage returns, cut into consecutive groups. -/
theorem scanAll_bound (n : Int) (hn : 1 ≤ n) (lines : List String) :
    (∀ c ∈ scanAll n (NewScanner lines), ∃ toks : List String, toks ≠ [] ∧
      c = joinLines toks ∧ toks.map some <:+: NewScanner lines ∧
      (runeCount toks.dropLast : Int) < n) ∧
    ((∀ l ∈ lines, l.utf8ByteSize < MaxScanTokenSize) →
      ∃ groups : List (List String), groups.flatten = lines.map dropCR ∧
        scanAll n (NewScanner lines) = groups.map joinLines ∧
        ∀ g ∈ groups, g ≠ [] ∧ (runeCount g.dropLast : Int) < n) := by
  refine ⟨scanAll_chunk_tokens n _ (NewScanner lines) (le_refl _), fun hshort => ?_⟩
  rw [NewScanner_short lines hshort]
  exact scanAll_groups n hn _ (lines.map dropCR) (le_refl _)

theorem scanAll_bound_witness :
    (1 : Int) ≤ 15 ∧
    ∃ groups : List (List String), groups.flatten = tenRuneLines.map dropCR ∧
      scanAll 15 (NewScanner tenRuneLines) = groups.map joinLines ∧
      ∀ g ∈ groups, g ≠ [] ∧ (runeCount g.dropLast : Int) < 15 :=
  ⟨by decide, (scanAll_bound 15 (by decide) tenRuneLines).2 (by decide)⟩

theorem takeBytes_replicate_x : ∀ (m k : Nat),
    takeBytes k (List.replicate m 'x') = List.replicate (min k m) 'x' := by
  intro m
  induction m with
  | zero => intro k; simp [takeBytes]
  | succ m ih =>
    intro k
    have hx : ('x' : Char).utf8Size = 1 := by decide
    rw [List.replicate_succ, takeBytes, hx]
    cases k with
    | zero => simp
    | succ k =>
      rw [if_pos (Nat.succ_le_succ (Nat.zero_le k)), Nat.add_sub_cancel, ih k,
        Nat.succ_min_succ, List.replicate_succ]

theorem dropCR_of_not_mem (s : String) (h : '\r' ∉ s.data) : dropCR s = s := by
  unfold dropCR
  rw [if_neg]
  intro hl
  exact h (List.mem_of_mem_getLast? hl)

theorem veryLongLine_token :
    dropCR ⟨takeBytes MaxScanTokenSize veryLongLine.data⟩ = longLine := by
  have h1 : takeBytes MaxScanTokenSize veryLongLine.data = List.replicate 65536 'x' := by
    show takeBytes 65536 (List.replicate 70000 'x') = _
    rw [takeBytes_replicate_x 70000 65536, Nat.min_eq_left (by decide)]
  rw [h1]
  exact dropCR_of_not_mem _ (fun h => absurd (List.eq_of_mem_replicate h) (by decide))

/-- A line of 70000 bytes after the line `ab`, with the limit 3: the first chunk
ends where `Scan` fails, the second is the first 65536 bytes of the long line,
and the line `cd` after it is never read. -/
theorem scanAll_truncated_line :
    scanAll 3 (NewScanner ["ab", veryLongLine, "cd"])
      = [joinLines ["ab"], joinLines [longLine]] := by
  have hsz : ¬ veryLongLine.utf8ByteSize < MaxScanTokenSize := by
    rw [show veryLongLine.utf8ByteSize = 70000 from utf8ByteSize_replicate_x 70000]
    decide
  have hab : ("ab" : String).utf8ByteSize < MaxScanTokenSize := by decide
  have hsc : NewScanner ["ab", veryLongLine, "cd"] = [some "ab", none, some longLine] := by
    rw [NewScanner, if_pos hab, NewScanner, if_neg hsz, veryLongLine_token]
    rfl
  have h1 : scanText [some "ab", none, some longLine] 3 =
      ⟨joinLines ["ab"], false, [some longLine]⟩ := by
    rw [scanText_of_loop 3 _ (joinLines ["ab"]) [some longLine]
      ((scanLoop_some 3 "ab" _ 0 "" (by decide)).trans
        (scanLoop_none 3 _ _ _ (by decide)))]
    rfl
  have hlen : (longLine.length : Int) = 65536 := by
    show ((List.replicate 65536 'x').length : Int) = 65536
    rw [List.length_replicate]
    rfl
  have h2 : scanText [some longLine] 3 = ⟨joinLines [longLine], false, []⟩ := by
    have hloop : scanLoop 3 [some longLine] 0 "" = (joinLines [longLine], []) := by
      rw [scanLoop_some 3 longLine [] 0 "" (by decide), scanLoop_nil, joinLines_cons,
        joinLines_nil]
      simp
    rw [scanText_of_loop 3 _ _ _ hloop, joinLines_eof_false]
  rw [hsc, scanAll_of_chunk 3 _ _ _ h1, scanAll_of_chunk 3 _ _ _ h2, scanAll_nil]

theorem scanAll_ab_cdefgh :
    scanAll 3 (NewScanner ["ab", "cdefgh"]) = ["ab\ncdefgh\n"] := by
  rw [scanAll_of_chunk 3 (NewScanner ["ab", "cdefgh"]) "ab\ncdefgh\n" [] (by decide),
    scanAll_nil]

/-- C8, as the claim states it, fails: with the limit 3 the line `cdefgh` of
six runes shares its chunk with the line before it. -/
theorem scanAll_long_line_counterexample :
    (1 : Int) ≤ 3 ∧ (3 : Int) < ("cdefgh".length : Int) ∧
    scanAll 3 (NewScanner ["ab", "cdefgh"]) = ["ab\ncdefgh\n"] ∧
    joinLines ["cdefgh"] ∉ scanAll 3 (NewScanner ["ab", "cdefgh"]) := by
  refine ⟨by decide, by decide, scanAll_ab_cdefgh, ?_⟩
  rw [scanAll_ab_cdefgh]
  decide

/-- On a scanner that returns the lines `pre`, then a line `t` of more runes
than the limit, and then goes on as `tail`, the line `t` ends a chunk and the
next chunk is the first of `tail`. -/
theorem scanAll_long_token (n : Int) (hn : 1 ≤ n) (t : String) (ht : n < (t.length : Int))
    (tail : Scanner) (pre : List String) :
    ∃ (cs : List String) (ls : List String),
      ls <:+ pre ∧ (runeCount ls : Int) < n ∧
      String.join cs ++ joinLines ls = joinLines pre ∧
      scanAll n (pre.map some ++ some t :: tail) =
        cs ++ joinLines (ls ++ [t]) :: scanAll n tail := by
  generalize hlen : pre.length = m
  induction m using Nat.strong_induction_on generalizing pre with
  | _ m ih =>
    have hsc : pre.map some ++ some t :: tail = (pre ++ [t]).map some ++ tail := by
      simp
    have hreach : n ≤ (runeCount (pre ++ [t]) : Int) := by
      rw [runeCount_append, runeCount_cons]
      push_cast
      omega
    obtain ⟨k, hk1, hk, hscan, hlt, -⟩ := scanText_reach n hn (pre ++ [t]) tail hreach
    rw [← hsc] at hscan
    rw [List.length_append, List.length_singleton] at hk
    by_cases hA : k ≤ pre.length
    · obtain ⟨cs, ls, hsuf, hcount, hjoin, hall⟩ :=
        ih (pre.drop k).length (by rw [List.length_drop]; omega) (pre.drop k) rfl
      rw [List.take_append_of_le_length hA, List.drop_append_of_le_length hA] at hscan
      have hrest : (pre.drop k ++ [t]).map some ++ tail
          = (pre.drop k).map some ++ some t :: tail := by simp
      rw [hrest] at hscan
      refine ⟨joinLines (pre.take k) :: cs, ls, ?_, hcount, ?_, ?_⟩
      · exact hsuf.trans (List.drop_suffix k pre)
      · rw [String_join_cons, String.append_assoc, hjoin, ← joinLines_append,
          List.take_append_drop]
      · rw [scanAll_of_chunk n _ _ _ hscan, hall, List.cons_append]
    · have hk2 : k = pre.length + 1 := by omega
      have hall : (pre ++ [t]).length ≤ k := by
        rw [List.length_append, List.length_singleton]
        omega
      have hpre : (runeCount pre : Int) < n := by
        rcases Nat.eq_zero_or_pos pre.length with h0 | h0
        · rw [List.length_eq_zero.1 h0]
          simp [runeCount]
          omega
        · have h1 := hlt pre.length h0 (by omega)
          rwa [List.take_left] at h1
      rw [List.take_of_length_le hall, List.drop_of_length_le hall, List.map_nil,
        List.nil_append] at hscan
      refine ⟨[], pre, List.suffix_refl pre, hpre, ?_, ?_⟩
      · rw [show String.join [] = "" from rfl, String.empty_append]
      · rw [scanAll_of_chunk n _ _ _ hscan, List.nil_append]

/-- C8, amended. Let the limit be at least one, and let a line of the stream
have more runes than the limit while it and the lines before it are shorter than
the buffer of the scanner, 65536 bytes.  The line is emitted whole as the last
line of a chunk: that chunk is the line preceded by a run `ls` of the lines just
before it, which total fewer runes than the limit, the chunks before it hold the
earlier lines, and the next chunk starts at the line after it.  Lines are
emitted without their carriage returns. -/
theorem scanAll_long_line (n : Int) (hn : 1 ≤ n) (l : String) (pre post : List String)
    (hl : n < ((dropCR l).length : Int))
    (hshort : ∀ x ∈ pre ++ [l], x.utf8ByteSize < MaxScanTokenSize) :
    ∃ (cs : List String) (ls : List String),
      ls <:+ pre.map dropCR ∧ (runeCount ls : Int) < n ∧
      String.join cs ++ joinLines ls = joinLines (pre.map dropCR) ∧
      scanAll n (NewScanner (pre ++ l :: post)) =
        cs ++ joinLines (ls ++ [dropCR l]) :: scanAll n (NewScanner post) := by
  have hsc : NewScanner (pre ++ l :: post) =
      (pre.map dropCR).map some ++ some (dropCR l) :: NewScanner post := by
    have h1 : pre ++ l :: post = (pre ++ [l]) ++ post := by simp
    rw [h1, NewScanner_append_short (pre ++ [l]) post hshort]
    simp
  rw [hsc]
  exact scanAll_long_token n hn (dropCR l) hl (NewScanner post) (pre.map dropCR)

theorem scanAll_long_line_witness :
    (1 : Int) ≤ 3 ∧ (3 : Int) < ((dropCR "cdefgh").length : Int) ∧
    (∀ x ∈ ["ab"] ++ ["cdefgh"], x.utf8ByteSize < MaxScanTokenSize) ∧
    ∃ (cs : List String) (ls : List String),
      ls <:+ ["ab"].map dropCR ∧ (runeCount ls : Int) < 3 ∧
      String.join cs ++ joinLines ls = joinLines (["ab"].map dropCR) ∧
      scanAll 3 (NewScanner (["ab"] ++ "cdefgh" :: ["x"]))
        = cs ++ joinLines (ls ++ [dropCR "cdefgh"]) :: scanAll 3 (NewScanner ["x"]) :=
  ⟨by decide, by decide, by decide,
    scanAll_long_line 3 (by decide) "cdefgh" ["ab"] ["x"] (by decide) (by decide)⟩

/-! ## Properties of `translate` and `batch` -/

theorem scanText_eof_out (L : Scanner) (n : Int) (h : (scanText L n).eof = true) :
    (scanText L n).out = "" := by
  have h1 : ((scanText L n).out.utf8ByteSize == 0) = true := h
  exact (utf8ByteSize_eq_zero _).1 (by simpa using h1)

theorem translateLoop_of_eof {σ : Type} (cfg : Config σ) (sc : Scanner) (st : Run σ)
    (h : (scanText sc cfg.APILimitNChars).eof = true) :
    translateLoop cfg sc st = (none, { st with log := st.log ++ [Event.scan "" true] }) := by
  rw [translateLoop]
  simp [h, scanText_eof_out sc _ h]

theorem translateLoop_of_error {σ : Type} (cfg : Config σ) (sc : Scanner) (st : Run σ)
    (out : String) (rest : Scanner) (err : String) (api : σ)
    (h : scanText sc cfg.APILimitNChars = ⟨out, false, rest⟩)
    (ht : cfg.Translate out cfg.DefaultSourceCode cfg.DefaultTargetCode st.api
      = (Except.error err, api)) :
    translateLoop cfg sc st = (some err,
      { w := st.w, api := api,
        log := st.log ++
          [Event.scan out false,
            Event.call out cfg.DefaultSourceCode cfg.DefaultTargetCode] }) := by
  rw [translateLoop]
  simp [h, ht]

theorem translateLoop_of_ok {σ : Type} (cfg : Config σ) (sc : Scanner) (st : Run σ)
    (out : String) (rest : Scanner) (res : String) (api : σ)
    (h : scanText sc cfg.APILimitNChars = ⟨out, false, rest⟩)
    (ht : cfg.Translate out cfg.DefaultSourceCode cfg.DefaultTargetCode st.api
      = (Except.ok res, api)) :
    translateLoop cfg sc st = translateLoop cfg rest
      { w := st.w ++ res, api := api,
        log := st.log ++
          [Event.scan out false,
            Event.call out cfg.DefaultSourceCode cfg.DefaultTargetCode,
            Event.write res] } := by
  rw [translateLoop]
  simp [h, ht]

theorem translateLoop_eq_feed {σ : Type} (cfg : Config σ) (sc : Scanner) (st : Run σ) :
    translateLoop cfg sc st = feed cfg (scanAll cfg.APILimitNChars sc) st := by
  generalize hlen : sc.length = m
  induction m using Nat.strong_induction_on generalizing sc st with
  | _ m ih =>
    cases heof : (scanText sc cfg.APILimitNChars).eof with
    | true =>
      rw [translateLoop_of_eof cfg sc st heof, scanAll_of_eof _ sc heof]
      rfl
    | false =>
      have hlt := scanText_shrinks sc _ heof
      have hs := scanText_eta sc _ heof
      rw [scanAll_of_chunk _ sc _ _ hs]
      cases ht : cfg.Translate (scanText sc cfg.APILimitNChars).out cfg.DefaultSourceCode
          cfg.DefaultTargetCode st.api with
      | mk res api =>
        cases res with
        | error err =>
          rw [translateLoop_of_error cfg sc st _ _ err api hs ht]
          simp only [feed, ht]
        | ok out =>
          rw [translateLoop_of_ok cfg sc st _ _ out api hs ht,
            ih _ (by rw [← hlen]; exact hlt) _ _ rfl]
          simp only [feed, ht]

/-- `translate` scans and calls the backend in turn; the result is that of
cutting all chunks first and feeding them to the backend in order. -/
theorem translate_eq_feed {σ : Type} (cfg : Config σ) (r : List String) (st : Run σ) :
    translate cfg r st = feed cfg (scanAll cfg.APILimitNChars (NewScanner r)) st :=
  translateLoop_eq_feed cfg (NewScanner r) st

theorem rounds_zero {σ : Type} (cfg : Config σ) (cs : List String) (outs : Nat → String) :
    rounds cfg cs outs 0 = [] := rfl

theorem rounds_succ {σ : Type} (cfg : Config σ) (c : String) (cs : List String)
    (outs : Nat → String) (k : Nat) :
    rounds cfg (c :: cs) outs (k + 1) =
      [Event.scan c false, Event.call c cfg.DefaultSourceCode cfg.DefaultTargetCode,
        Event.write (outs 0)] ++ rounds cfg cs (fun i => outs (i + 1)) k := by
  unfold rounds
  rw [List.range_succ_eq_map, List.flatMap_cons, List.flatMap_map]
  rfl

theorem join_outs_succ (outs : Nat → String) (k : Nat) :
    String.join ((List.range (k + 1)).map outs) =
      outs 0 ++ String.join ((List.range k).map (fun i => outs (i + 1))) := by
  rw [List.range_succ_eq_map, List.map_cons, String_join_cons, List.map_map]
  rfl

/-- The run of `feed` when the first `k` calls succeed. -/
theorem feed_run {σ : Type} (cfg : Config σ) : ∀ (cs : List String) (st : Run σ) (k : Nat)
    (outs : Nat → String) (apis : Nat → σ), apis 0 = st.api →
    (∀ i, i < k → ∃ c, cs[i]? = some c ∧
      cfg.Translate c cfg.DefaultSourceCode cfg.DefaultTargetCode (apis i)
        = (Except.ok (outs i), apis (i + 1))) →
    (cs.length = k →
      feed cfg cs st = (none,
        { w := st.w ++ String.join ((List.range k).map outs), api := apis k,
          log := st.log ++ rounds cfg cs outs k ++ [Event.scan "" true] })) ∧
    (∀ (c err : String) (api : σ), cs[k]? = some c →
      cfg.Translate c cfg.DefaultSourceCode cfg.DefaultTargetCode (apis k)
        = (Except.error err, api) →
      feed cfg cs st = (some err,
        { w := st.w ++ String.join ((List.range k).map outs), api := api,
          log := st.log ++ rounds cfg cs outs k ++
            [Event.scan c false,
              Event.call c cfg.DefaultSourceCode cfg.DefaultTargetCode] })) := by
  intro cs
  induction cs with
  | nil =>
    intro st k outs apis h0 hok
    have hk : k = 0 := by
      rcases Nat.eq_zero_or_pos k with h | h
      · exact h
      · obtain ⟨c, hc, -⟩ := hok 0 h
        simp at hc
    subst hk
    refine ⟨fun _ => ?_, fun c err api hc _ => by simp at hc⟩
    simp [feed, rounds_zero, h0, show String.join [] = "" from rfl]
  | cons c cs ih =>
    intro st k outs apis h0 hok
    cases k with
    | zero =>
      refine ⟨fun h => by simp at h, fun c' err api hc ht => ?_⟩
      simp only [List.getElem?_cons_zero, Option.some.injEq] at hc
      subst hc
      rw [h0] at ht
      simp [feed, ht, rounds_zero, show String.join [] = "" from rfl]
    | succ k =>
      obtain ⟨c0, hc0, ht0⟩ := hok 0 (Nat.succ_pos k)
      simp only [List.getElem?_cons_zero, Option.some.injEq] at hc0
      subst hc0
      rw [h0] at ht0
      have hok' : ∀ i, i < k → ∃ c', cs[i]? = some c' ∧
          cfg.Translate c' cfg.DefaultSourceCode cfg.DefaultTargetCode (apis (i + 1))
            = (Except.ok (outs (i + 1)), apis (i + 1 + 1)) := by
        intro i hi
        obtain ⟨c', hc', ht'⟩ := hok (i + 1) (Nat.succ_lt_succ hi)
        exact ⟨c', by simpa using hc', ht'⟩
      obtain ⟨hA, hB⟩ := ih
        { w := st.w ++ outs 0, api := apis 1,
          log := st.log ++
            [Event.scan c false, Event.call c cfg.DefaultSourceCode cfg.DefaultTargetCode,
              Event.write (outs 0)] }
        k (fun i => outs (i + 1)) (fun i => apis (i + 1)) rfl hok'
      refine ⟨fun hlen => ?_, fun c' err api hc ht => ?_⟩
      · have hlen' : cs.length = k := by simpa using hlen
        simp only [feed, ht0]
        rw [hA hlen', rounds_succ, join_outs_succ]
        simp [String.append_assoc, List.append_assoc]
      · have hc' : cs[k]? = some c' := by simpa using hc
        simp only [feed, ht0]
        rw [hB c' err api hc' ht, rounds_succ, join_outs_succ]
        simp [String.append_assoc, List.append_assoc]

/-- C9. `translate` hands the chunks to the backend in the order in which
`scanText` cuts them, and writes each result before it scans again.  Let the
first `k` calls succeed, call `i` on chunk `i` in backend state `apis i`
returning `outs i` and the state `apis (i + 1)`.  If these are all the chunks,
`translate` returns `nil` having written `outs 0 ++ ... ++ outs (k - 1)`.  If the
next call fails, `translate` returns that error having written exactly those `k`
results, and the record of steps ends with the failed call: no later chunk is
scanned or passed to the backend. -/
theorem translate_in_order {σ : Type} (cfg : Config σ) (r : List String) (st : Run σ)
    (cs : List String) (hcs : scanAll cfg.APILimitNChars (NewScanner r) = cs)
    (k : Nat) (outs : Nat → String) (apis : Nat → σ) (h0 : apis 0 = st.api)
    (hok : ∀ i, i < k → ∃ c, cs[i]? = some c ∧
      cfg.Translate c cfg.DefaultSourceCode cfg.DefaultTargetCode (apis i)
        = (Except.ok (outs i), apis (i + 1))) :
    (cs.length = k →
      translate cfg r st = (none,
        { w := st.w ++ String.join ((List.range k).map outs), api := apis k,
          log := st.log ++ rounds cfg cs outs k ++ [Event.scan "" true] })) ∧
    (∀ (c err : String) (api : σ), cs[k]? = some c →
      cfg.Translate c cfg.DefaultSourceCode cfg.DefaultTargetCode (apis k)
        = (Except.error err, api) →
      translate cfg r st = (some err,
        { w := st.w ++ String.join ((List.range k).map outs), api := api,
          log := st.log ++ rounds cfg cs outs k ++
            [Event.scan c false,
              Event.call c cfg.DefaultSourceCode cfg.DefaultTargetCode] })) := by
  rw [translate_eq_feed, hcs]
  exact feed_run cfg cs st k outs apis h0 hok

theorem scanAll_four_lines :
    scanAll failsOnThird.APILimitNChars (NewScanner ["a", "b", "c", "d"])
      = ["a\n", "b\n", "c\n", "d\n"] := by
  show scanAll 1 (NewScanner ["a", "b", "c", "d"]) = _
  rw [scanAll_of_chunk 1 (NewScanner ["a", "b", "c", "d"]) "a\n"
      (NewScanner ["b", "c", "d"]) (by decide),
    scanAll_of_chunk 1 (NewScanner ["b", "c", "d"]) "b\n" (NewScanner ["c", "d"])
      (by decide),
    scanAll_of_chunk 1 (NewScanner ["c", "d"]) "c\n" (NewScanner ["d"]) (by decide),
    scanAll_of_chunk 1 (NewScanner ["d"]) "d\n" [] (by decide), scanAll_nil]

theorem translate_in_order_witness :
    translate failsOnThird ["a", "b", "c", "d"] { w := "", api := 0, log := [] } =
      (some "backend failed",
        { w := "[a\n][b\n]", api := 3,
          log := [Event.scan "a\n" false, Event.call "a\n" "en" "ja", Event.write "[a\n]",
            Event.scan "b\n" false, Event.call "b\n" "en" "ja", Event.write "[b\n]",
            Event.scan "c\n" false, Event.call "c\n" "en" "ja"] }) :=
  (translate_in_order failsOnThird ["a", "b", "c", "d"] { w := "", api := 0, log := [] }
    ["a\n", "b\n", "c\n", "d\n"] scanAll_four_lines 2
    (fun i => if i = 0 then "[a\n]" else "[b\n]") (fun i => i) rfl
    (fun i hi => by
      rcases Nat.lt_succ_iff_lt_or_eq.1 hi with h | h
      · have h0 : i = 0 := Nat.lt_one_iff.1 h
        subst h0
        exact ⟨"a\n", rfl, rfl⟩
      · subst h
        exact ⟨"b\n", rfl, rfl⟩)).2 "c\n" "backend failed" 3 rfl rfl

/-- The only error `batch` can return is that of a file that does not open: the
value `translate` returns is dropped on both paths. -/
theorem batchRange_all_open {σ : Type} (cfg : Config σ)
    (fs : String → Except String (List String)) : ∀ (paths : List String) (st : Run σ),
    (∀ p ∈ paths, ∃ f, fs p = Except.ok f) → (batchRange cfg fs paths st).1 = none := by
  intro paths
  induction paths with
  | nil => intro st _; rfl
  | cons p rest ih =>
    intro st h
    obtain ⟨f, hf⟩ := h p (List.mem_cons_self _ _)
    simp only [batchRange, hf]
    exact ih _ (fun q hq => h q (List.mem_cons_of_mem _ hq))

theorem batch_all_open {σ : Type} (cfg : Config σ) (stdin : List String)
    (fs : String → Except String (List String)) (paths : List String) (st : Run σ)
    (h : ∀ p ∈ paths, ∃ f, fs p = Except.ok f) :
    (batch cfg stdin fs paths st).1 = none ∧ mainBatch cfg stdin fs paths st = 0 := by
  have hb : (batch cfg stdin fs paths st).1 = none := by
    unfold batch
    split
    · rfl
    · exact batchRange_all_open cfg fs paths st h
  exact ⟨hb, by simp only [mainBatch, hb]⟩

/-- C10, the code at a failing input.  The backend fails on the one chunk of the
input, and `translate` returns its error; `batch` returns `nil` all the same,
for standard input and for a file that opens, and the process exits with 0. -/
theorem batch_drops_translate_error :
    (translate alwaysFails ["hello"] { w := "", api := (), log := [] }).1
      = some "backend failed" ∧
    (batch alwaysFails ["hello"] (fun _ => Except.error "no such file") []
      { w := "", api := (), log := [] }).1 = none ∧
    mainBatch alwaysFails ["hello"] (fun _ => Except.error "no such file") []
      { w := "", api := (), log := [] } = 0 ∧
    (batch alwaysFails [] (fun _ => Except.ok ["hello"]) ["in.txt"]
      { w := "", api := (), log := [] }).1 = none ∧
    mainBatch alwaysFails [] (fun _ => Except.ok ["hello"]) ["in.txt"]
      { w := "", api := (), log := [] } = 0 := by
  refine ⟨?_, rfl, rfl, rfl, rfl⟩
  show (translateLoop alwaysFails (NewScanner ["hello"]) _).1 = _
  rw [translateLoop_of_error alwaysFails (NewScanner ["hello"]) _ "hello\n" []
    "backend failed" () (by decide) rfl]


/-! ## Properties of the interactive session -/

theorem interactStep_ok {σ : Type} (cfg : SessionConfig σ) (s : Session) (raw : String)
    (t : Term σ) (hraw : ¬ raw.utf8ByteSize ≤ 0) (hq : TrimSpace raw ≠ "q") :
    interactStep cfg s (Except.ok raw) t =
      (Status.active, (dispatch cfg s (TrimSpace raw) t).1,
        { (dispatch cfg s (TrimSpace raw) t).2 with
          out := (dispatch cfg s (TrimSpace raw) t).2.out ++ [Effect.history (TrimSpace raw)] }) := by
  simp only [interactStep, hraw, hq, if_false]

theorem TrimSpace_empty : TrimSpace "" = "" := by decide

theorem nonempty_of_TrimSpace (raw : String) (h : TrimSpace raw ≠ "") :
    ¬ raw.utf8ByteSize ≤ 0 := by
  intro h0
  have : raw = "" := (utf8ByteSize_eq_zero raw).1 (by omega)
  subst this
  exact h TrimSpace_empty

theorem drop_two_append (a b : Char) (rest : String) :
    (⟨(String.mk [a, b] ++ rest).data.drop 2⟩ : String) = rest := by
  apply String.ext
  simp [String.data_append]

theorem dispatch_target {σ : Type} (cfg : SessionConfig σ) (s : Session) (rest : String)
    (t : Term σ) :
    dispatch cfg s ("t " ++ rest) t =
      match commandTarget cfg ("t " ++ rest) s.target t with
      | ((code, true), t1) => ({ s with target := code }, t1)
      | ((_, false), t1) => (s, t1) := by
  have h1 : ("t " ++ rest) ≠ "h" := by
    intro h; have := congrArg String.data h; simp [String.data_append] at this
  have h2 : ("t " ++ rest) ≠ "l" := by
    intro h; have := congrArg String.data h; simp [String.data_append] at this
  have h3 : ("t " ++ rest) ≠ "s" := by
    intro h; have := congrArg String.data h; simp [String.data_append] at this
  have h4 : HasPrefix ("t " ++ rest) "l " = false := by
    simp [HasPrefix, String.data_append, List.isPrefixOf]
  have h5 : HasPrefix ("t " ++ rest) "s " = false := by
    simp [HasPrefix, String.data_append, List.isPrefixOf]
  have h6 : HasPrefix ("t " ++ rest) "t " = true := by
    simp [HasPrefix, String.data_append]
  simp only [dispatch, h1, h2, h3, h4, h5, h6, if_false, or_self, or_true, if_true,
    Bool.false_eq_true]

theorem dispatch_source {σ : Type} (cfg : SessionConfig σ) (s : Session) (rest : String)
    (t : Term σ) :
    dispatch cfg s ("s " ++ rest) t =
      match commandSource cfg ("s " ++ rest) s.source t with
      | ((code, true), t1) => ({ s with source := code }, t1)
      | ((_, false), t1) => (s, t1) := by
  have h1 : ("s " ++ rest) ≠ "h" := by
    intro h; have := congrArg String.data h; simp [String.data_append] at this
  have h2 : ("s " ++ rest) ≠ "l" := by
    intro h; have := congrArg String.data h; simp [String.data_append] at this
  have h4 : HasPrefix ("s " ++ rest) "l " = false := by
    simp [HasPrefix, String.data_append, List.isPrefixOf]
  have h5 : HasPrefix ("s " ++ rest) "s " = true := by
    simp [HasPrefix, String.data_append]
  simp only [dispatch, h1, h2, h4, h5, if_false, or_self, or_true, if_true,
    Bool.false_eq_true]

theorem commandTarget_query {σ : Type} (cfg : SessionConfig σ) (rest curr : String)
    (t : Term σ) :
    (∀ c name a, lookupBoth cfg (TrimSpace rest) t.api = ((c, name, true), a) →
      (commandTarget cfg ("t " ++ rest) curr t).1 = (c, true)) ∧
    (∀ c name a, lookupBoth cfg (TrimSpace rest) t.api = ((c, name, false), a) →
      (commandTarget cfg ("t " ++ rest) curr t).1 = ("", false)) := by
  have h1 : ("t " ++ rest) ≠ "t" := by
    intro h; have := congrArg String.data h; simp [String.data_append] at this
  have h2 : HasPrefix ("t " ++ rest) "t " = true := by
    simp [HasPrefix, String.data_append]
  have h3 : (⟨("t " ++ rest).data.drop 2⟩ : String) = rest := drop_two_append 't' ' ' rest
  constructor
  · intro c name a h
    simp only [commandTarget, h1, h2, h3, if_false, if_true, h]
    split <;> rfl
  · intro c name a h
    simp only [commandTarget, h1, h2, h3, if_false, if_true, h]

theorem commandSource_query {σ : Type} (cfg : SessionConfig σ) (rest curr : String)
    (t : Term σ) :
    (∀ c name a, lookupBoth cfg (TrimSpace rest) t.api = ((c, name, true), a) →
      (commandSource cfg ("s " ++ rest) curr t).1 = (c, true)) ∧
    (∀ c name a, lookupBoth cfg (TrimSpace rest) t.api = ((c, name, false), a) →
      (commandSource cfg ("s " ++ rest) curr t).1 = ("", false)) := by
  have h1 : ("s " ++ rest) ≠ "s" := by
    intro h; have := congrArg String.data h; simp [String.data_append] at this
  have h2 : HasPrefix ("s " ++ rest) "s " = true := by
    simp [HasPrefix, String.data_append]
  have h3 : (⟨("s " ++ rest).data.drop 2⟩ : String) = rest := drop_two_append 's' ' ' rest
  constructor
  · intro c name a h
    simp only [commandSource, h1, h2, h3, if_false, if_true, h]
    split <;> rfl
  · intro c name a h
    simp only [commandSource, h1, h2, h3, if_false, if_true, h]

theorem interactStep_target {σ : Type} (cfg : SessionConfig σ) (s : Session)
    (raw rest : String) (t : Term σ) (hin : TrimSpace raw = "t " ++ rest) :
    (interactStep cfg s (Except.ok raw) t).1 = Status.active ∧
    (interactStep cfg s (Except.ok raw) t).2.1 =
      (match commandTarget cfg ("t " ++ rest) s.target t with
        | ((code, true), _) => { s with target := code }
        | ((_, false), _) => s) := by
  have hne : TrimSpace raw ≠ "" := by
    rw [hin]; intro h; have := congrArg String.data h; simp [String.data_append] at this
  have hq : TrimSpace raw ≠ "q" := by
    rw [hin]; intro h; have := congrArg String.data h; simp [String.data_append] at this
  rw [interactStep_ok cfg s raw t (nonempty_of_TrimSpace raw hne) hq, hin, dispatch_target]
  refine ⟨rfl, ?_⟩
  split <;> simp_all

theorem interactStep_source {σ : Type} (cfg : SessionConfig σ) (s : Session)
    (raw rest : String) (t : Term σ) (hin : TrimSpace raw = "s " ++ rest) :
    (interactStep cfg s (Except.ok raw) t).1 = Status.active ∧
    (interactStep cfg s (Except.ok raw) t).2.1 =
      (match commandSource cfg ("s " ++ rest) s.source t with
        | ((code, true), _) => { s with source := code }
        | ((_, false), _) => s) := by
  have hne : TrimSpace raw ≠ "" := by
    rw [hin]; intro h; have := congrArg String.data h; simp [String.data_append] at this
  have hq : TrimSpace raw ≠ "q" := by
    rw [hin]; intro h; have := congrArg String.data h; simp [String.data_append] at this
  rw [interactStep_ok cfg s raw t (nonempty_of_TrimSpace raw hne) hq, hin, dispatch_source]
  refine ⟨rfl, ?_⟩
  split <;> simp_all

/-- C11. When the trimmed input is `t ` followed by `rest` and the lookup, the
API endpoint first and then `tran.LookupPlang`, finds the code `c` for the
trimmed `rest`, one turn of the loop leaves the session active with the target
`c` and the source unchanged; for `s ` followed by `rest` it sets the source to
`c` and leaves the target unchanged. -/
theorem interactStep_sets_language {σ : Type} (cfg : SessionConfig σ) (s : Session)
    (raw rest c name : String) (a : σ) (t : Term σ)
    (hres : lookupBoth cfg (TrimSpace rest) t.api = ((c, name, true), a)) :
    (TrimSpace raw = "t " ++ rest →
      (interactStep cfg s (Except.ok raw) t).1 = Status.active ∧
      (interactStep cfg s (Except.ok raw) t).2.1 = { source := s.source, target := c }) ∧
    (TrimSpace raw = "s " ++ rest →
      (interactStep cfg s (Except.ok raw) t).1 = Status.active ∧
      (interactStep cfg s (Except.ok raw) t).2.1 = { source := c, target := s.target }) := by
  constructor
  · intro hin
    obtain ⟨h1, h2⟩ := interactStep_target cfg s raw rest t hin
    refine ⟨h1, ?_⟩
    rw [h2]
    have hc := (commandTarget_query cfg rest s.target t).1 c name a hres
    cases hct : commandTarget cfg ("t " ++ rest) s.target t with
    | mk r t1 =>
      rw [hct] at hc
      simp only at hc
      subst hc
      rfl
  · intro hin
    obtain ⟨h1, h2⟩ := interactStep_source cfg s raw rest t hin
    refine ⟨h1, ?_⟩
    rw [h2]
    have hc := (commandSource_query cfg rest s.source t).1 c name a hres
    cases hct : commandSource cfg ("s " ++ rest) s.source t with
    | mk r t1 =>
      rw [hct] at hc
      simp only at hc
      subst hc
      rfl

set_option maxRecDepth 100000 in
theorem interactStep_sets_language_witness :
    lookupBoth demoSession (TrimSpace "fr") () = (("fr", "French", true), ()) ∧
    TrimSpace "t fr" = "t " ++ "fr" ∧
    (interactStep demoSession { source := "en", target := "ja" } (Except.ok "t fr")
      { api := (), out := [] }).2.1 = { source := "en", target := "fr" } :=
  ⟨by decide, by decide,
    ((interactStep_sets_language demoSession { source := "en", target := "ja" } "t fr" "fr"
      "fr" "French" () { api := (), out := [] } (by decide)).1 (by decide)).2⟩

theorem TrimSpace_getLast (raw : String) (c : Char)
    (h : (TrimSpace raw).data.getLast? = some c) : IsSpace c = false := by
  unfold TrimSpace at h
  simp only [List.getLast?_reverse] at h
  have := List.head?_dropWhile_not IsSpace (raw.data.dropWhile IsSpace).reverse
  rw [h] at this
  simpa using this

theorem utf8ByteSize_two_le (a b : Char) (r : List Char)
    (h : (String.mk (a :: b :: r)).utf8ByteSize ≤ 2) : r = [] := by
  cases r with
  | nil => rfl
  | cons c r =>
    have h1 : String.utf8ByteSize.go (a :: b :: c :: r) ≤ 2 := h
    have ha := Char.utf8Size_pos a
    have hb := Char.utf8Size_pos b
    have hc := Char.utf8Size_pos c
    simp only [String.utf8ByteSize.go] at h1
    omega

/-- A trimmed input of at most two bytes does not start with a letter and a
blank. -/
theorem TrimSpace_short_no_blank (raw : String) (c : Char)
    (h : (TrimSpace raw).utf8ByteSize ≤ 2) :
    HasPrefix (TrimSpace raw) (String.mk [c, ' ']) = false := by
  cases hp : HasPrefix (TrimSpace raw) (String.mk [c, ' ']) with
  | false => rfl
  | true =>
    exfalso
    unfold HasPrefix at hp
    obtain ⟨r, hr⟩ := List.isPrefixOf_iff_prefix.1 hp
    simp only [List.cons_append, List.nil_append] at hr
    have hd : TrimSpace raw = String.mk (c :: ' ' :: r) := String.ext hr.symm
    rw [hd] at h
    have hr0 := utf8ByteSize_two_le c ' ' r h
    subst hr0
    have := TrimSpace_getLast raw ' ' (by rw [hd]; rfl)
    exact absurd this (by decide)

theorem dispatch_shorthand {σ : Type} (cfg : SessionConfig σ) (s : Session) (raw : String)
    (t : Term σ) (hlen : (TrimSpace raw).utf8ByteSize ≤ 2)
    (hh : TrimSpace raw ≠ "h") (hl : TrimSpace raw ≠ "l") (hs : TrimSpace raw ≠ "s") :
    dispatch cfg s (TrimSpace raw) t =
      match commandTarget cfg (TrimSpace raw) s.target t with
      | ((code, true), t1) => ({ s with target := code }, t1)
      | ((_, false), t1) => (s, t1) := by
  have h4 : HasPrefix (TrimSpace raw) "l " = false := TrimSpace_short_no_blank raw 'l' hlen
  have h5 : HasPrefix (TrimSpace raw) "s " = false := TrimSpace_short_no_blank raw 's' hlen
  simp only [dispatch, hh, hl, hs, h4, h5, hlen, if_false, or_self, true_or, if_true,
    Bool.false_eq_true]

theorem commandTarget_shorthand {σ : Type} (cfg : SessionConfig σ) (raw curr : String)
    (t : Term σ) (hlen : (TrimSpace raw).utf8ByteSize ≤ 2) (ht : TrimSpace raw ≠ "t")
    (c name : String) (a : σ)
    (h : lookupBoth cfg (TrimSpace raw) t.api = ((c, name, false), a)) :
    (commandTarget cfg (TrimSpace raw) curr t).1 = ("", false) := by
  have h2 : HasPrefix (TrimSpace raw) "t " = false := TrimSpace_short_no_blank raw 't' hlen
  simp only [commandTarget, ht, h2, if_false, h, Bool.false_eq_true]

/-- C12. When the lookup, the API endpoint first and then `tran.LookupPlang`,
does not find the query of a source command `s rest`, of a target command
`t rest`, or of a target shorthand of at most two bytes, one turn of the loop
leaves the session active with its source and its target unchanged. -/
theorem interactStep_unresolved {σ : Type} (cfg : SessionConfig σ) (s : Session)
    (raw : String) (t : Term σ) :
    (∀ rest c name a, TrimSpace raw = "s " ++ rest →
      lookupBoth cfg (TrimSpace rest) t.api = ((c, name, false), a) →
      (interactStep cfg s (Except.ok raw) t).1 = Status.active ∧
      (interactStep cfg s (Except.ok raw) t).2.1 = s) ∧
    (∀ rest c name a, TrimSpace raw = "t " ++ rest →
      lookupBoth cfg (TrimSpace rest) t.api = ((c, name, false), a) →
      (interactStep cfg s (Except.ok raw) t).1 = Status.active ∧
      (interactStep cfg s (Except.ok raw) t).2.1 = s) ∧
    (∀ c name a, (TrimSpace raw).utf8ByteSize ≤ 2 →
      TrimSpace raw ∉ ["q", "h", "l", "s", "t"] →
      lookupBoth cfg (TrimSpace raw) t.api = ((c, name, false), a) →
      (interactStep cfg s (Except.ok raw) t).1 = Status.active ∧
      (interactStep cfg s (Except.ok raw) t).2.1 = s) := by
  refine ⟨?_, ?_, ?_⟩
  · intro rest c name a hin hres
    obtain ⟨h1, h2⟩ := interactStep_source cfg s raw rest t hin
    refine ⟨h1, ?_⟩
    rw [h2]
    have hc := (commandSource_query cfg rest s.source t).2 c name a hres
    cases hct : commandSource cfg ("s " ++ rest) s.source t with
    | mk r t1 =>
      rw [hct] at hc
      simp only at hc
      subst hc
      rfl
  · intro rest c name a hin hres
    obtain ⟨h1, h2⟩ := interactStep_target cfg s raw rest t hin
    refine ⟨h1, ?_⟩
    rw [h2]
    have hc := (commandTarget_query cfg rest s.target t).2 c name a hres
    cases hct : commandTarget cfg ("t " ++ rest) s.target t with
    | mk r t1 =>
      rw [hct] at hc
      simp only at hc
      subst hc
      rfl
  · intro c name a hlen hcmd hres
    simp only [List.mem_cons, List.mem_singleton, List.not_mem_nil, or_false, not_or] at hcmd
    obtain ⟨hq, hh, hl, hs, ht⟩ := hcmd
    by_cases hraw : raw.utf8ByteSize ≤ 0
    · simp only [interactStep, hraw, if_true, and_self]
    · rw [interactStep_ok cfg s raw t hraw hq, dispatch_shorthand cfg s raw t hlen hh hl hs]
      refine ⟨rfl, ?_⟩
      have hc := commandTarget_shorthand cfg raw s.target t hlen ht c name a hres
      cases hct : commandTarget cfg (TrimSpace raw) s.target t with
      | mk r t1 =>
        rw [hct] at hc
        simp only at hc
        subst hc
        rfl

set_option maxRecDepth 100000 in
theorem interactStep_unresolved_witness :
    TrimSpace "s xx" = "s " ++ "xx" ∧
    lookupBoth demoSession (TrimSpace "xx") () = (("", "", false), ()) ∧
    (interactStep demoSession { source := "en", target := "ja" } (Except.ok "s xx")
      { api := (), out := [] }).1 = Status.active ∧
    (interactStep demoSession { source := "en", target := "ja" } (Except.ok "s xx")
      { api := (), out := [] }).2.1 = { source := "en", target := "ja" } ∧
    (interactStep demoSession { source := "en", target := "ja" } (Except.ok "xx")
      { api := (), out := [] }).2.1 = { source := "en", target := "ja" } :=
  ⟨by decide, by decide,
    ((interactStep_unresolved demoSession { source := "en", target := "ja" } "s xx"
      { api := (), out := [] }).1 "xx" "" "" () (by decide) (by decide)).1,
    ((interactStep_unresolved demoSession { source := "en", target := "ja" } "s xx"
      { api := (), out := [] }).1 "xx" "" "" () (by decide) (by decide)).2,
    ((interactStep_unresolved demoSession { source := "en", target := "ja" } "xx"
      { api := (), out := [] }).2.2 "" "" () (by decide) (by decide) (by decide)).2⟩

theorem dispatch_text {σ : Type} (cfg : SessionConfig σ) (s : Session) (inp : String)
    (t : Term σ) (hlen : 2 < inp.utf8ByteSize) (hh : inp ≠ "h")
    (hl : HasPrefix inp "l " = false) (hs : HasPrefix inp "s " = false)
    (ht : HasPrefix inp "t " = false) :
    dispatch cfg s inp t =
      match cfg.Ptranslate inp s.target t.api with
      | ((out, true), a) => (s, { api := a, out := t.out ++ [Effect.result out] })
      | ((_, false), a) =>
        match cfg.Translate inp s.source s.target a with
        | (Except.error err, a2) =>
          (s, { api := a2,
                out := t.out ++
                  [Effect.translateCall inp s.source s.target, Effect.error err] })
        | (Except.ok out, a2) =>
          (s, { api := a2,
                out := t.out ++
                  [Effect.translateCall inp s.source s.target, Effect.result out] }) := by
  have h1 : inp ≠ "l" := by
    intro h; rw [h] at hlen; exact absurd hlen (by decide)
  have h2 : inp ≠ "s" := by
    intro h; rw [h] at hlen; exact absurd hlen (by decide)
  have h3 : ¬ inp.utf8ByteSize ≤ 2 := by omega
  simp only [dispatch, hh, h1, h2, h3, hl, hs, ht, if_false, or_self, Bool.false_eq_true]

/-- C13. For a trimmed input of more than two bytes that is not `q` or `h` and
does not start with `l `, `s ` or `t `, when the local phrase lookup misses, one
turn of the loop calls the backend once, with the input and the current source
and target, prints its result or its error, and leaves the session active with
its source and target unchanged. -/
theorem interactStep_translates {σ : Type} (cfg : SessionConfig σ) (s : Session)
    (raw : String) (t : Term σ) (out : String) (a1 : σ)
    (hlen : 2 < (TrimSpace raw).utf8ByteSize)
    (hq : TrimSpace raw ≠ "q") (hh : TrimSpace raw ≠ "h")
    (hl : HasPrefix (TrimSpace raw) "l " = false)
    (hs : HasPrefix (TrimSpace raw) "s " = false)
    (ht : HasPrefix (TrimSpace raw) "t " = false)
    (hmiss : cfg.Ptranslate (TrimSpace raw) s.target t.api = ((out, false), a1)) :
    (∀ res a2,
      cfg.Translate (TrimSpace raw) s.source s.target a1 = (Except.ok res, a2) →
      interactStep cfg s (Except.ok raw) t =
        (Status.active, s,
          { api := a2,
            out := t.out ++
              [Effect.translateCall (TrimSpace raw) s.source s.target, Effect.result res,
                Effect.history (TrimSpace raw)] })) ∧
    (∀ err a2,
      cfg.Translate (TrimSpace raw) s.source s.target a1 = (Except.error err, a2) →
      interactStep cfg s (Except.ok raw) t =
        (Status.active, s,
          { api := a2,
            out := t.out ++
              [Effect.translateCall (TrimSpace raw) s.source s.target, Effect.error err,
                Effect.history (TrimSpace raw)] })) := by
  have hne : TrimSpace raw ≠ "" := by
    intro h; rw [h] at hlen; exact absurd hlen (by decide)
  have hstep := interactStep_ok cfg s raw t (nonempty_of_TrimSpace raw hne) hq
  rw [dispatch_text cfg s (TrimSpace raw) t hlen hh hl hs ht] at hstep
  simp only [hmiss] at hstep
  constructor
  · intro res a2 hres
    rw [hstep]
    simp only [hres, List.append_assoc, List.cons_append, List.nil_append]
  · intro err a2 hres
    rw [hstep]
    simp only [hres, List.append_assoc, List.cons_append, List.nil_append]

theorem interactStep_translates_witness :
    interactStep demoSession { source := "en", target := "fr" } (Except.ok "hello")
      { api := (), out := [] } =
      (Status.active, { source := "en", target := "fr" },
        { api := (),
          out := [Effect.translateCall "hello" "en" "fr", Effect.result "[hello]",
            Effect.history "hello"] }) :=
  (interactStep_translates demoSession { source := "en", target := "fr" } "hello"
    { api := (), out := [] } "" () (by decide) (by decide) (by decide) (by decide)
    (by decide) (by decide) rfl).1 "[hello]" () rfl

theorem lookupBoth_valid {σ : Type} (cfg : SessionConfig σ) (valid : String → Prop)
    (hapi : ∀ q a c n a1, cfg.APILookupLang q a = ((c, n, true), a1) → valid c)
    (hpl : ∀ q a c n a1, cfg.LookupPlang q a = ((c, n, true), a1) → valid c)
    (q : String) (a : σ) (c n : String) (a1 : σ)
    (h : lookupBoth cfg q a = ((c, n, true), a1)) : valid c := by
  unfold lookupBoth at h
  split at h
  · rename_i code name a2 heq
    simp only [Prod.mk.injEq] at h
    obtain ⟨⟨hc, -, -⟩, -⟩ := h
    subst hc
    exact hapi q a code name a2 heq
  · exact hpl q _ c n a1 h

theorem commandSource_valid {σ : Type} (cfg : SessionConfig σ) (valid : String → Prop)
    (hs : valid cfg.DefaultSourceCode)
    (hapi : ∀ q a c n a1, cfg.APILookupLang q a = ((c, n, true), a1) → valid c)
    (hpl : ∀ q a c n a1, cfg.LookupPlang q a = ((c, n, true), a1) → valid c)
    (inp curr : String) (t : Term σ) (code : String) (t1 : Term σ)
    (h : commandSource cfg inp curr t = ((code, true), t1)) : valid code := by
  unfold commandSource at h
  by_cases hin : inp = "s"
  · simp only [hin, if_true] at h
    split at h <;> simp only [Prod.mk.injEq] at h <;> obtain ⟨⟨hc, -⟩, -⟩ := h <;>
      subst hc <;> exact hs
  · simp only [hin, if_false] at h
    split at h
    · rename_i t2 heq
      split at heq
      · simp at heq
      · simp at h
    · rename_i c n t2 heq
      split at heq
      · rename_i c1 n1 a heq1
        simp only [Prod.mk.injEq, Option.some.injEq] at heq
        obtain ⟨⟨hc, -⟩, -⟩ := heq
        have hv := lookupBoth_valid cfg valid hapi hpl _ _ c1 n1 a heq1
        split at h <;> simp only [Prod.mk.injEq] at h <;> obtain ⟨⟨hc2, -⟩, -⟩ := h <;>
          subst hc2 <;> subst hc <;> exact hv
      · simp at heq

theorem commandTarget_valid {σ : Type} (cfg : SessionConfig σ) (valid : String → Prop)
    (ht : valid cfg.DefaultTargetCode)
    (hapi : ∀ q a c n a1, cfg.APILookupLang q a = ((c, n, true), a1) → valid c)
    (hpl : ∀ q a c n a1, cfg.LookupPlang q a = ((c, n, true), a1) → valid c)
    (inp curr : String) (t : Term σ) (code : String) (t1 : Term σ)
    (h : commandTarget cfg inp curr t = ((code, true), t1)) : valid code := by
  unfold commandTarget at h
  by_cases hin : inp = "t"
  · simp only [hin, if_true] at h
    split at h <;> simp only [Prod.mk.injEq] at h <;> obtain ⟨⟨hc, -⟩, -⟩ := h <;>
      subst hc <;> exact ht
  · simp only [hin, if_false] at h
    split at h
    · rename_i t2 heq
      split at heq
      · simp at heq
      · simp at h
    · rename_i c n t2 heq
      split at heq
      · rename_i c1 n1 a heq1
        simp only [Prod.mk.injEq, Option.some.injEq] at heq
        obtain ⟨⟨hc, -⟩, -⟩ := heq
        have hv := lookupBoth_valid cfg valid hapi hpl _ _ c1 n1 a heq1
        split at h <;> simp only [Prod.mk.injEq] at h <;> obtain ⟨⟨hc2, -⟩, -⟩ := h <;>
          subst hc2 <;> subst hc <;> exact hv
      · simp at heq

theorem dispatch_valid {σ : Type} (cfg : SessionConfig σ) (valid : String → Prop)
    (hs : valid cfg.DefaultSourceCode) (ht : valid cfg.DefaultTargetCode)
    (hapi : ∀ q a c n a1, cfg.APILookupLang q a = ((c, n, true), a1) → valid c)
    (hpl : ∀ q a c n a1, cfg.LookupPlang q a = ((c, n, true), a1) → valid c)
    (s : Session) (inp : String) (t : Term σ)
    (hv : valid s.source ∧ valid s.target) :
    valid (dispatch cfg s inp t).1.source ∧ valid (dispatch cfg s inp t).1.target := by
  unfold dispatch
  split
  · exact hv
  · split
    · exact hv
    · split
      · split
        · rename_i code t1 heq
          exact ⟨commandSource_valid cfg valid hs hapi hpl _ _ _ code t1 heq, hv.2⟩
        · exact hv
      · split
        · split
          · rename_i code t1 heq
            exact ⟨hv.1, commandTarget_valid cfg valid ht hapi hpl _ _ _ code t1 heq⟩
          · exact hv
        · split
          · exact hv
          · split <;> exact hv

theorem interactStep_valid {σ : Type} (cfg : SessionConfig σ) (valid : String → Prop)
    (hs : valid cfg.DefaultSourceCode) (ht : valid cfg.DefaultTargetCode)
    (hapi : ∀ q a c n a1, cfg.APILookupLang q a = ((c, n, true), a1) → valid c)
    (hpl : ∀ q a c n a1, cfg.LookupPlang q a = ((c, n, true), a1) → valid c)
    (s : Session) (p : Except String String) (t : Term σ)
    (hv : valid s.source ∧ valid s.target) :
    valid (interactStep cfg s p t).2.1.source ∧ valid (interactStep cfg s p t).2.1.target := by
  cases p with
  | error err => exact hv
  | ok raw =>
    by_cases hraw : raw.utf8ByteSize ≤ 0
    · simp only [interactStep, hraw, if_true]
      exact hv
    · by_cases hq : TrimSpace raw = "q"
      · simp only [interactStep, hraw, hq, if_true, if_false]
        exact hv
      · rw [interactStep_ok cfg s raw t hraw hq]
        exact dispatch_valid cfg valid hs ht hapi hpl s _ t hv

theorem interactLoop_valid {σ : Type} (cfg : SessionConfig σ) (valid : String → Prop)
    (hs : valid cfg.DefaultSourceCode) (ht : valid cfg.DefaultTargetCode)
    (hapi : ∀ q a c n a1, cfg.APILookupLang q a = ((c, n, true), a1) → valid c)
    (hpl : ∀ q a c n a1, cfg.LookupPlang q a = ((c, n, true), a1) → valid c) :
    ∀ (prompts : List (Except String String)) (s : Session) (t : Term σ),
    valid s.source ∧ valid s.target →
    valid (interactLoop cfg prompts s t).2.1.source ∧
      valid (interactLoop cfg prompts s t).2.1.target := by
  intro prompts
  induction prompts with
  | nil => intro s t hv; exact hv
  | cons p ps ih =>
    intro s t hv
    have hstep := interactStep_valid cfg valid hs ht hapi hpl s p t hv
    unfold interactLoop
    split
    · rename_i s1 t1 heq
      rw [heq] at hstep
      exact hstep
    · rename_i s1 t1 heq
      rw [heq] at hstep
      exact ih s1 t1 hstep

/-- C14. Let `valid` hold of the resolvable codes, none of them empty.  If the
configured default source and target are valid and both lookups return only
valid codes when they succeed, then after every finite sequence of results of
the prompt the source and the target of the session are valid, and so not
empty. -/
theorem interact_valid {σ : Type} (cfg : SessionConfig σ) (valid : String → Prop)
    (hne : ¬ valid "")
    (hs : valid cfg.DefaultSourceCode) (ht : valid cfg.DefaultTargetCode)
    (hapi : ∀ q a c n a1, cfg.APILookupLang q a = ((c, n, true), a1) → valid c)
    (hpl : ∀ q a c n a1, cfg.LookupPlang q a = ((c, n, true), a1) → valid c)
    (prompts : List (Except String String)) (t : Term σ) :
    valid (interact cfg prompts t).2.1.source ∧ valid (interact cfg prompts t).2.1.target ∧
    (interact cfg prompts t).2.1.source ≠ "" ∧ (interact cfg prompts t).2.1.target ≠ "" := by
  have h := interactLoop_valid cfg valid hs ht hapi hpl prompts
    { source := cfg.DefaultSourceCode, target := cfg.DefaultTargetCode }
    { t with out := t.out ++ [Effect.welcome, Effect.help] } ⟨hs, ht⟩
  unfold interact
  exact ⟨h.1, h.2, fun h0 => hne (h0 ▸ h.1), fun h0 => hne (h0 ▸ h.2)⟩

/-- A successful `LookupLang` returns an entry of the table when every visited
entry is one. -/
theorem LookupLang_entry (lo : Char → Char) (order : List (String × String))
    (horder : ∀ e ∈ order, e ∈ iso639map) (s : String)
    (h : (LookupLang lo order s).2.2 = none) :
    ((LookupLang lo order s).1, (LookupLang lo order s).2.1) ∈ iso639map := by
  cases hl : iso639map.lookup (ToLower lo s) with
  | some n =>
    rw [LookupLang_of_lookup lo order s n hl]
    exact lookup_mem hl
  | none =>
    cases hr : rangeContains lo (ToLower lo s) order with
    | none =>
      rw [LookupLang_of_none lo order s hl hr] at h
      exact absurd h (by simp)
    | some e =>
      rw [LookupLang_of_range lo order s e hl hr]
      exact horder e (rangeContains_eq_some lo _ order e hr).1

theorem demoSession_LookupPlang_valid (q : String) (a : Unit) (c n : String) (a1 : Unit)
    (h : demoSession.LookupPlang q a = ((c, n, true), a1)) :
    c ∈ iso639map.map Prod.fst := by
  have hmem := LookupLang_entry Char.toLower iso639map (fun e he => he) q
  simp only [demoSession] at h
  split at h
  · rename_i code name heq
    simp only [Prod.mk.injEq] at h
    obtain ⟨⟨hc, -, -⟩, -⟩ := h
    subst hc
    rw [heq] at hmem
    exact List.mem_map_of_mem Prod.fst (hmem rfl)
  · simp at h

set_option maxRecDepth 100000 in
theorem interact_valid_witness :
    "" ∉ iso639map.map Prod.fst ∧
    (interact demoSession
      [Except.ok "t fr", Except.ok "s xx", Except.error "EOF", Except.ok "s german"]
      { api := (), out := [] }).2.1 = { source := "de", target := "fr" } ∧
    (interact demoSession
      [Except.ok "t fr", Except.ok "s xx", Except.error "EOF", Except.ok "s german"]
      { api := (), out := [] }).2.1.source ∈ iso639map.map Prod.fst ∧
    (interact demoSession
      [Except.ok "t fr", Except.ok "s xx", Except.error "EOF", Except.ok "s german"]
      { api := (), out := [] }).2.1.target ∈ iso639map.map Prod.fst :=
  ⟨by decide, by decide,
    (interact_valid demoSession (fun c => c ∈ iso639map.map Prod.fst) (by decide)
      (by decide) (by decide) (fun q a c n a1 h => by simp [demoSession] at h)
      demoSession_LookupPlang_valid _ _).1,
    (interact_valid demoSession (fun c => c ∈ iso639map.map Prod.fst) (by decide)
      (by decide) (by decide) (fun q a c n a1 h => by simp [demoSession] at h)
      demoSession_LookupPlang_valid _ _).2.1⟩

/-- C15, as the claim states it, fails: when the prompt reports the end of the
input the loop prints the error and goes on, and it is still running after any
number of such reports. -/
theorem interactStep_eof_counterexample :
    interactStep demoSession { source := "en", target := "ja" } (Except.error "EOF")
      { api := (), out := [] } =
      (Status.active, { source := "en", target := "ja" },
        { api := (), out := [Effect.promptError "EOF"] }) ∧
    (interact demoSession [Except.error "EOF", Except.error "EOF", Except.error "EOF"]
      { api := (), out := [] }).1 = Status.active :=
  ⟨rfl, rfl⟩

/-- C15, amended. A turn of the loop closes the session exactly when the prompt
returns a line that is `q` once trimmed.  When the prompt reports an error, the
end of the input included, the turn prints the error and leaves the session
active and unchanged. -/
theorem interactStep_closed_iff {σ : Type} (cfg : SessionConfig σ) (s : Session)
    (p : Except String String) (t : Term σ) :
    ((interactStep cfg s p t).1 = Status.closed ↔
      ∃ raw, p = Except.ok raw ∧ TrimSpace raw = "q") ∧
    (∀ err, interactStep cfg s (Except.error err) t =
      (Status.active, s, { t with out := t.out ++ [Effect.promptError err] })) := by
  refine ⟨?_, fun err => rfl⟩
  cases p with
  | error err =>
    constructor
    · intro h
      exact absurd h (by simp [interactStep])
    · rintro ⟨raw, hraw, -⟩
      exact absurd hraw (by simp)
  | ok raw =>
    by_cases hq : TrimSpace raw = "q"
    · have hne : TrimSpace raw ≠ "" := by rw [hq]; decide
      have hraw := nonempty_of_TrimSpace raw hne
      constructor
      · intro _
        exact ⟨raw, rfl, hq⟩
      · intro _
        simp only [interactStep, hraw, hq, if_true, if_false]
    · constructor
      · intro h
        by_cases hraw : raw.utf8ByteSize ≤ 0
        · simp [interactStep, hraw] at h
        · rw [interactStep_ok cfg s raw t hraw hq] at h
          exact absurd h (by simp)
      · rintro ⟨raw', hraw', hq'⟩
        simp only [Except.ok.injEq] at hraw'
        subst hraw'
        exact absurd hq' hq

theorem lessCode_iff (x y : ISO639) : lessCode x y = true ↔ x.Code < y.Code := by
  unfold lessCode
  rw [String.lt_iff_toList_lt]
  simp [String.toList]

theorem lessCode_false_iff (x y : ISO639) : lessCode y x = false ↔ x.Code ≤ y.Code := by
  rw [← Bool.not_eq_true, lessCode_iff, not_lt]

/-! ## Properties of `LangList` and `CurrentLang` -/

theorem LangList_perm (sortSlice : (ISO639 → ISO639 → Bool) → List ISO639 → List ISO639)
    (hsort : SortSpec sortSlice) (order : List (String × String))
    (horder : order.Perm iso639map) :
    (LangList sortSlice order).Perm (iso639map.map (fun kv => ISO639.mk kv.1 kv.2)) :=
  (hsort.perm _).trans (horder.map _)

theorem LangList_strict (sortSlice : (ISO639 → ISO639 → Bool) → List ISO639 → List ISO639)
    (hsort : SortSpec sortSlice) (order : List (String × String))
    (horder : order.Perm iso639map) :
    (LangList sortSlice order).Pairwise (fun x y => x.Code < y.Code) := by
  have hp := LangList_perm sortSlice hsort order horder
  have hcodes : ((LangList sortSlice order).map ISO639.Code).Nodup := by
    rw [(hp.map ISO639.Code).nodup_iff, List.map_map]
    exact iso639map_nodup_keys
  have h1 : (LangList sortSlice order).Pairwise (fun x y => lessCode y x = false) :=
    hsort.sorted _
  have h2 : (LangList sortSlice order).Pairwise (fun x y => x.Code ≠ y.Code) :=
    List.pairwise_map.1 hcodes
  exact (h1.and h2).imp
    (fun h => lt_of_le_of_ne ((lessCode_false_iff _ _).1 h.1) h.2)

/-- C16. Whatever the order in which the map is visited, `LangList` returns
every entry of the table exactly once, in strictly ascending order of the codes,
and so always the same slice. -/
theorem LangList_sorted (sortSlice : (ISO639 → ISO639 → Bool) → List ISO639 → List ISO639)
    (hsort : SortSpec sortSlice) (order : List (String × String))
    (horder : order.Perm iso639map) :
    (LangList sortSlice order).length = iso639map.length ∧
    (LangList sortSlice order).Nodup ∧
    (∀ e, e ∈ LangList sortSlice order ↔ (e.Code, e.Name) ∈ iso639map) ∧
    (LangList sortSlice order).Pairwise (fun x y => x.Code < y.Code) ∧
    LangList sortSlice order = LangList sortSlice iso639map := by
  have hp := LangList_perm sortSlice hsort order horder
  have hstrict := LangList_strict sortSlice hsort order horder
  refine ⟨?_, ?_, ?_, hstrict, ?_⟩
  · rw [hp.length_eq, List.length_map]
  · exact hstrict.imp (fun h heq => absurd (congrArg ISO639.Code heq) (ne_of_lt h))
  · intro e
    rw [hp.mem_iff, List.mem_map]
    constructor
    · rintro ⟨kv, hkv, rfl⟩
      exact hkv
    · intro h
      exact ⟨(e.Code, e.Name), h, rfl⟩
  · haveI : IsAntisymm ISO639 (fun x y => x.Code < y.Code) :=
      ⟨fun a b h1 h2 => absurd h1 (lt_asymm h2)⟩
    exact List.eq_of_perm_of_sorted
      (hp.trans (LangList_perm sortSlice hsort iso639map (List.Perm.refl _)).symm)
      hstrict (LangList_strict sortSlice hsort iso639map (List.Perm.refl _))

theorem SortSpec_insertionSortSlice : SortSpec insertionSortSlice := by
  haveI : IsTotal ISO639 (fun x y => lessCode y x = false) :=
    ⟨fun a b => by
      simp only [lessCode_false_iff]
      exact le_total a.Code b.Code⟩
  haveI : IsTrans ISO639 (fun x y => lessCode y x = false) :=
    ⟨fun a b c h1 h2 => by
      simp only [lessCode_false_iff] at h1 h2 ⊢
      exact le_trans h1 h2⟩
  exact ⟨fun l => List.perm_insertionSort _ l, fun l => List.sorted_insertionSort _ l⟩

theorem LangList_sorted_witness :
    SortSpec insertionSortSlice ∧ iso639map.reverse.Perm iso639map ∧
    (LangList insertionSortSlice iso639map.reverse).length = iso639map.length ∧
    (LangList insertionSortSlice iso639map.reverse).Pairwise (fun x y => x.Code < y.Code) ∧
    LangList insertionSortSlice iso639map.reverse = LangList insertionSortSlice iso639map :=
  ⟨SortSpec_insertionSortSlice, List.reverse_perm _,
    (LangList_sorted insertionSortSlice SortSpec_insertionSortSlice iso639map.reverse
      (List.reverse_perm _)).1,
    (LangList_sorted insertionSortSlice SortSpec_insertionSortSlice iso639map.reverse
      (List.reverse_perm _)).2.2.2.1,
    (LangList_sorted insertionSortSlice SortSpec_insertionSortSlice iso639map.reverse
      (List.reverse_perm _)).2.2.2.2⟩

theorem CurrentLang_of_slice (lo : Char → Char) (order : List (String × String))
    (s : String) (windows : Bool) (culture : Option String) (a b : Nat)
    (h : sliceTwo s = some (a, b)) :
    CurrentLang lo order (some s) windows culture =
      match LookupLang lo order (runesOfTwoBytes a b) with
      | (code, name, none) => some (code, name)
      | (_, _, some _) => some ("en", "English") := by
  simp only [CurrentLang, h, Option.map_some']

/-- C17, as the claim states it, fails: the first two characters of `POSIX` are
not a code of the table, yet `po` occurs in `Polish` and `CurrentLang` returns
that entry and not English. -/
theorem CurrentLang_counterexample :
    ToLower Char.toLower "PO" ∉ iso639map.map Prod.fst ∧
    CurrentLang Char.toLower iso639map (some "POSIX") false none = some ("pl", "Polish") ∧
    CurrentLang Char.toLower iso639map (some "POSIX") false none ≠ some ("en", "English") := by
  decide

/-- C17, amended. Off Windows, with `LANG` unset `CurrentLang` returns English.
With `LANG` set to a value of at least two bytes, let `q` be the lowercase form
of its first two bytes: when `q` is a code of the table the result is that code
and its name; when `q` is neither a code nor part of any lowercased name the
result is English; when `q` is not a code but part of a name the result is an
entry whose name contains `q`. -/
theorem CurrentLang_spec (lo : Char → Char) (order : List (String × String))
    (horder : order.Perm iso639map) (culture : Option String) :
    CurrentLang lo order none false culture = some ("en", "English") ∧
    (∀ (s : String) (windows : Bool) (a b : Nat), sliceTwo s = some (a, b) →
      (∀ n, (ToLower lo (runesOfTwoBytes a b), n) ∈ iso639map →
        CurrentLang lo order (some s) windows culture
          = some (ToLower lo (runesOfTwoBytes a b), n)) ∧
      (ToLower lo (runesOfTwoBytes a b) ∉ iso639map.map Prod.fst →
        (∀ e ∈ iso639map,
          ¬ (ToLower lo (runesOfTwoBytes a b)).data <:+: (ToLower lo e.2).data) →
        CurrentLang lo order (some s) windows culture = some ("en", "English")) ∧
      (ToLower lo (runesOfTwoBytes a b) ∉ iso639map.map Prod.fst →
        (∃ e ∈ iso639map,
          (ToLower lo (runesOfTwoBytes a b)).data <:+: (ToLower lo e.2).data) →
        ∃ e ∈ iso639map,
          (ToLower lo (runesOfTwoBytes a b)).data <:+: (ToLower lo e.2).data ∧
          CurrentLang lo order (some s) windows culture = some e)) := by
  refine ⟨rfl, fun s windows a b h => ⟨?_, ?_, ?_⟩⟩
  · intro n hn
    rw [CurrentLang_of_slice lo order s windows culture a b h,
      LookupLang_of_lookup lo order _ n (lookup_of_mem iso639map_nodup_keys hn)]
  · intro hk hno
    rw [CurrentLang_of_slice lo order s windows culture a b h,
      LookupLang_of_none lo order _ (lookup_eq_none.2 hk)
        ((rangeContains_perm_none lo _ order horder).2 hno)]
  · intro hk hex
    have hl := lookup_eq_none.2 hk
    cases hr : rangeContains lo (ToLower lo (runesOfTwoBytes a b)) order with
    | none =>
      obtain ⟨e, he, hsub⟩ := hex
      exact absurd hsub ((rangeContains_perm_none lo _ order horder).1 hr e he)
    | some e =>
      obtain ⟨hmem, hc⟩ := rangeContains_eq_some lo _ order e hr
      refine ⟨e, horder.mem_iff.1 hmem, (Contains_iff _ _).1 hc, ?_⟩
      rw [CurrentLang_of_slice lo order s windows culture a b h,
        LookupLang_of_range lo order _ e hl hr]

set_option maxRecDepth 100000 in
theorem CurrentLang_spec_witness :
    iso639map.reverse.Perm iso639map ∧ sliceTwo "ja_JP.UTF-8" = some (106, 97) ∧
    CurrentLang Char.toLower iso639map.reverse (some "ja_JP.UTF-8") false none
      = some ("ja", "Japanese") ∧
    CurrentLang Char.toLower iso639map.reverse none false none = some ("en", "English") :=
  ⟨List.reverse_perm _, by decide,
    ((CurrentLang_spec Char.toLower iso639map.reverse (List.reverse_perm _) none).2
      "ja_JP.UTF-8" false 106 97 (by decide)).1 "Japanese" (by decide),
    (CurrentLang_spec Char.toLower iso639map.reverse (List.reverse_perm _) none).1⟩

/-- C18, the code at failing inputs.  With `LANG` set to `C`, or to the empty
string, the slice `s[:2]` is out of range and `CurrentLang` panics instead of
returning a pair; so does `bs[:2]` on Windows when the command prints less than
two bytes. -/
theorem CurrentLang_short_value_panics :
    CurrentLang Char.toLower iso639map (some "C") false none = none ∧
    CurrentLang Char.toLower iso639map (some "") false none = none ∧
    CurrentLang Char.toLower iso639map none true (some "") = none := by
  decide

/-! ## The empty query and the limits below one -/

/-- C19. The empty query never fails: it is not a code, and it occurs in every
name, so in every order in which the map may be visited `LookupLang` returns
the entry visited first, an entry of the table. -/
theorem LookupLang_empty (lo : Char → Char) (order : List (String × String))
    (horder : order.Perm iso639map) :
    (LookupLang lo order "").2.2 = none ∧
    ((LookupLang lo order "").1, (LookupLang lo order "").2.1) ∈ iso639map ∧
    (∀ e rest, order = e :: rest → LookupLang lo order "" = (e.1, e.2, none)) := by
  have hq : ToLower lo "" = "" := rfl
  have hl : iso639map.lookup (ToLower lo "") = none := by
    rw [hq]
    decide
  have hfirst : ∀ e rest, order = e :: rest → LookupLang lo order "" = (e.1, e.2, none) := by
    intro e rest ho
    apply LookupLang_of_range lo order "" e hl
    subst ho
    obtain ⟨k, v⟩ := e
    have hc : Contains (ToLower lo v) (ToLower lo "") = true :=
      (Contains_iff _ _).2 (by rw [hq]; exact List.nil_infix)
    simp only [rangeContains, hc, if_true]
  cases ho : order with
  | nil =>
    rw [ho] at horder
    have hlen := horder.length_eq
    rw [List.length_nil] at hlen
    exact absurd (List.length_eq_zero.1 hlen.symm) (by simp [iso639map])
  | cons e rest =>
    have hres := hfirst e rest ho
    rw [ho] at hres
    rw [hres]
    refine ⟨rfl, ?_, ?_⟩
    · exact horder.mem_iff.1 (by rw [ho]; exact List.mem_cons_self _ _)
    · intro e' rest' h'
      simp only [List.cons.injEq] at h'
      rw [← h'.1]

set_option maxRecDepth 100000 in
theorem LookupLang_empty_witness :
    iso639map.reverse.Perm iso639map ∧
    LookupLang Char.toLower iso639map "" = ("ab", "Abkhazian", none) ∧
    LookupLang Char.toLower iso639map.reverse "" = ("zu", "Zulu", none) ∧
    (LookupLang Char.toLower iso639map.reverse "").2.2 = none :=
  ⟨List.reverse_perm _, by decide, by decide,
    (LookupLang_empty Char.toLower iso639map.reverse (List.reverse_perm _)).1⟩

theorem scanText_nonpositive (n : Int) (hn : n ≤ 0) (sc : Scanner) :
    scanText sc n = ⟨"", true, sc⟩ := by
  rw [scanText_of_loop n sc "" sc (scanLoop_done n sc 0 "" (not_lt.2 hn))]
  rfl

/-- C20. With a limit of zero or less `scanText` returns the empty string and
`eof = true` and leaves every line in the scanner; `translate` then returns
`nil` having written nothing and without a call of the backend, whatever the
input holds. -/
theorem translate_nonpositive_limit {σ : Type} (cfg : Config σ)
    (hn : cfg.APILimitNChars ≤ 0) (r : List String) (st : Run σ) :
    scanText (NewScanner r) cfg.APILimitNChars = ⟨"", true, NewScanner r⟩ ∧
    translate cfg r st =
      (none, { w := st.w, api := st.api, log := st.log ++ [Event.scan "" true] }) := by
  have hs := scanText_nonpositive cfg.APILimitNChars hn (NewScanner r)
  refine ⟨hs, ?_⟩
  show translateLoop cfg (NewScanner r) st = _
  rw [translateLoop_of_eof cfg (NewScanner r) st (by rw [hs])]

theorem translate_nonpositive_limit_witness :
    zeroLimit.APILimitNChars ≤ 0 ∧
    scanText (NewScanner ["hello", "world"]) zeroLimit.APILimitNChars
      = ⟨"", true, NewScanner ["hello", "world"]⟩ ∧
    translate zeroLimit ["hello", "world"] { w := "", api := (), log := [] } =
      (none, { w := "", api := (), log := [Event.scan "" true] }) :=
  ⟨by decide,
    (translate_nonpositive_limit zeroLimit (by decide) ["hello", "world"]
      { w := "", api := (), log := [] }).1,
    (translate_nonpositive_limit zeroLimit (by decide) ["hello", "world"]
      { w := "", api := (), log := [] }).2⟩

end GoTran
